import Mathlib

/-!
Verification of the `gta` dependency-graph engine (graph.go, gta.go).

The Go code is shallowly embedded as follows:
* Go maps (`map[string]*Package` etc.) become association lists
  `List (String × _)`; map assignment is insert-or-overwrite, and only the
  key set / key-value pairs matter to the claims, so iteration-order
  nondeterminism of Go maps is irrelevant.
* Go pointers into the shared node store become `ID` keys resolved through
  `DependencyGraph.packageMap`; the builder's pointer mutations become
  functional updates of that map.
* The unbounded recursion of `dependents`/`dependencies` (graph.go:211-263),
  which in Go terminates only on acyclic graphs, is given an explicit fuel
  parameter; running out of fuel is the distinguished error `outOfFuel`,
  modelling non-termination, and is distinct from `ErrUnknownPackage`.
-/

/-- Association-list lookup, modelling Go map indexing `m[k]` with `exists`. -/
def lookupL {α : Type} (l : List (String × α)) (k : String) : Option α :=
  match l with
  | [] => none
  | (k', v) :: rest => if k = k' then some v else lookupL rest k

/-- Association-list insert-or-overwrite, modelling Go map assignment `m[k] = v`. -/
def setL {α : Type} (l : List (String × α)) (k : String) (v : α) : List (String × α) :=
  match l with
  | [] => [(k, v)]
  | (k', v') :: rest => if k = k' then (k', v) :: rest else (k', v') :: setL rest k v

/-- Update the value stored at key `k` in place (no-op when `k` is absent),
modelling a Go mutation through a pointer held in the map. -/
def updateL {α : Type} (l : List (String × α)) (k : String) (f : α → α) : List (String × α) :=
  match l with
  | [] => []
  | (k', v) :: rest => if k = k' then (k', f v) :: rest else (k', v) :: updateL rest k f

/-- Add `id` to a list of IDs unless already present: the key-set effect of a
Go map assignment keyed by `id`. -/
def insertId (l : List String) (id : String) : List String :=
  if id ∈ l then l else l ++ [id]

/-- Merge every ID of `l2` into `l1`, modelling `for id := range m2 { m1[id] = … }`. -/
def unionIds (l1 l2 : List String) : List String :=
  l2.foldl insertId l1

/-- `dg.packagePathMap[path] = append(dg.packagePathMap[path], id)` (graph.go:94). -/
def appendPath (l : List (String × List String)) (path id : String) :
    List (String × List String) :=
  match l with
  | [] => [(path, [id])]
  | (k, v) :: rest => if path = k then (k, v ++ [id]) :: rest else (k, v) :: appendPath rest path id

/-- Register `id` under directory `dir`, modelling `dm[newPackage.ID] = newPackage`
into `dg.dirMap[dir]` (graph.go:103-108). -/
def addDirEntry (l : List (String × List String)) (dir id : String) :
    List (String × List String) :=
  match l with
  | [] => [(dir, [id])]
  | (k, v) :: rest =>
    if dir = k then (k, insertId v id) :: rest else (k, v) :: addDirEntry rest dir id

/-- A node of the dependency graph (graph.go:19-24).  Go stores
`Dependencies`/`Dependents` as maps from ID to a pointer into the shared node
store; here each edge set is the list of those IDs, resolved through
`DependencyGraph.packageMap`. -/
structure Package where
  id : String
  pkgPath : String
  dependencies : List String
  dependents : List String
deriving DecidableEq, Repr

/-- The four indices of graph.go:27-39.  `packagePathMap` and `dirMap` store
lists of IDs in place of lists/maps of pointers. -/
structure DependencyGraph where
  packageMap : List (String × Package)
  packagePathMap : List (String × List String)
  fileMap : List (String × String)
  dirMap : List (String × List String)
deriving DecidableEq, Repr

/-- Errors of the query engine.  `unknownPackage` is graph.go:136's
`ErrUnknownPackage`; `outOfFuel` models non-termination of the unbounded Go
recursion (possible only on cyclic graphs). -/
inductive GraphErr where
  | unknownPackage
  | outOfFuel
deriving DecidableEq, Repr

/-- `ErrUnknownPackage` (graph.go:136). -/
def ErrUnknownPackage : GraphErr := .unknownPackage

/-- Resolve a list of IDs through the node store, modelling iteration over Go
map values (each value is the pointer stored for its key; construction keeps
every stored ID resolvable). -/
def pkgsOf (g : DependencyGraph) (ids : List String) : List Package :=
  ids.filterMap (fun id => lookupL g.packageMap id)

/-- Split a character list at every occurrence of `sep`. -/
def splitChars (sep : Char) : List Char → List (List Char)
  | [] => [[]]
  | c :: rest =>
    match splitChars sep rest with
    | [] => [[c]]
    | h :: t => if c = sep then [] :: h :: t else (c :: h) :: t

/-- Interleave `'/'` between path components. -/
def joinSlash : List (List Char) → List Char
  | [] => []
  | [x] => x
  | x :: xs => x ++ '/' :: joinSlash xs

/-- `filepath.Dir` for slash-separated paths: everything before the final
separator, `"."` when there is none.  Used only as the key into `dirMap`, on
both the build side and the query side. -/
def dirname (p : String) : String :=
  let parts := splitChars '/' p.data
  if parts.length ≤ 1 then "." else String.mk (joinSlash parts.dropLast)

/-- The inner loop `for _, depPkg := range pkg.Dependents` of graph.go:246-260
(and its mirror at graph.go:219-233): record `depPkg.ID`, and in recursive
mode expand `depPkg.PkgPath` via the callback `rec` (the recursive call of
the enclosing function, one fuel lower) and merge the sub-result. -/
def edgeLoop (rec : String → Except GraphErr (List String)) (recursive : Bool) :
    List Package → List String → Except GraphErr (List String)
  | [], acc => .ok acc
  | dep :: rest, acc =>
    if recursive then
      match rec dep.pkgPath with
      | .error e => .error e
      | .ok sub => edgeLoop rec recursive rest (unionIds (insertId acc dep.id) sub)
    else
      edgeLoop rec recursive rest (insertId acc dep.id)

/-- The outer loop `for _, pkg := range pkgs` of graph.go:245 (mirror:
graph.go:218), over the edge sets selected by `edgesOf` (`Dependents` for
`dependents`, `Dependencies` for `dependencies`). -/
def pkgLoop (g : DependencyGraph) (edgesOf : Package → List String)
    (rec : String → Except GraphErr (List String)) (recursive : Bool) :
    List Package → List String → Except GraphErr (List String)
  | [], acc => .ok acc
  | p :: rest, acc =>
    match edgeLoop rec recursive (pkgsOf g (edgesOf p)) acc with
    | .error e => .error e
    | .ok acc2 => pkgLoop g edgesOf rec recursive rest acc2

/-- `(g *DependencyGraph) dependents(pkgPath, recursive)` (graph.go:238-263).
Looks up the variants of `path`, then runs the nested loops; each recursive
call of the Go function becomes a call at one less fuel. -/
def dependentsAux (g : DependencyGraph) : Nat → String → Bool → Except GraphErr (List String)
  | 0, _, _ => .error .outOfFuel
  | fuel + 1, path, recursive =>
    match lookupL g.packagePathMap path with
    | none => .error .unknownPackage
    | some ids =>
      pkgLoop g Package.dependents (fun p => dependentsAux g fuel p true) recursive
        (pkgsOf g ids) []

/-- `(g *DependencyGraph) dependencies(pkgPath, recursive)` (graph.go:211-236),
the mirror image of `dependentsAux` over the `dependencies` edge sets. -/
def dependenciesAux (g : DependencyGraph) : Nat → String → Bool → Except GraphErr (List String)
  | 0, _, _ => .error .outOfFuel
  | fuel + 1, path, recursive =>
    match lookupL g.packagePathMap path with
    | none => .error .unknownPackage
    | some ids =>
      pkgLoop g Package.dependencies (fun p => dependenciesAux g fuel p true) recursive
        (pkgsOf g ids) []

/-- `Dependencies` (graph.go:139-145), returning the ID set of the result map. -/
def DependencyGraph.Dependencies (g : DependencyGraph) (fuel : Nat) (pkgPath : String) :
    Except GraphErr (List String) :=
  dependenciesAux g fuel pkgPath false

/-- `TransitiveDependencies` (graph.go:148-154). -/
def DependencyGraph.TransitiveDependencies (g : DependencyGraph) (fuel : Nat) (pkgPath : String) :
    Except GraphErr (List String) :=
  dependenciesAux g fuel pkgPath true

/-- `Dependents` (graph.go:157-163). -/
def DependencyGraph.Dependents (g : DependencyGraph) (fuel : Nat) (pkgPath : String) :
    Except GraphErr (List String) :=
  dependentsAux g fuel pkgPath false

/-- `TransitiveDependents` (graph.go:166-172). -/
def DependencyGraph.TransitiveDependents (g : DependencyGraph) (fuel : Nat) (pkgPath : String) :
    Except GraphErr (List String) :=
  dependentsAux g fuel pkgPath true

/-- One iteration of the first loop of `AffectedPackages` (graph.go:178-192):
mark the exact `fileMap` owner of `f`, or fall back to every unit under
`dirMap[filepath.Dir(f)]`, or nothing. -/
def directStep (g : DependencyGraph) (acc : List String) (f : String) : List String :=
  match lookupL g.fileMap f with
  | some id => insertId acc id
  | none =>
    match lookupL g.dirMap (dirname f) with
    | some ids => ids.foldl insertId acc
    | none => acc

/-- The first loop of `AffectedPackages` (graph.go:177-192): the ID-keyed map
`directlyAffected`, built from the exact `fileMap` hit or the `dirMap`
fallback keyed by `filepath.Dir(f)`. -/
def directlyAffectedIds (g : DependencyGraph) (files : List String) : List String :=
  files.foldl (directStep g) []

/-- The second loop of `AffectedPackages` (graph.go:194-207): append each
directly affected unit to `direct`, seed `allAffected` with it, and merge in
its full transitive dependents. -/
def affectedLoop (g : DependencyGraph) (fuel : Nat) :
    List String → List String → List String → Except GraphErr (List String × List String)
  | [], direct, allAffected => .ok (direct, allAffected)
  | id :: rest, direct, allAffected =>
    match lookupL g.packageMap id with
    | none => affectedLoop g fuel rest direct allAffected
    | some pkg =>
      match dependentsAux g fuel pkg.pkgPath true with
      | .error e => .error e
      | .ok deps =>
        affectedLoop g fuel rest (direct ++ [id]) (unionIds (insertId allAffected id) deps)

/-- `AffectedPackages` (graph.go:176-209), returning the `direct` list and the
ID set of `allAffected`. -/
def DependencyGraph.AffectedPackages (g : DependencyGraph) (fuel : Nat) (files : List String) :
    Except GraphErr (List String × List String) :=
  affectedLoop g fuel (directlyAffectedIds g files) [] []

/-!
## Graph construction (graph.go:41-133)

`BuildDependencyGraph` first calls the external loader (`packages.Load`); that
part is outside the repository.  What the repository implements is the
recursive `addPackage` walk over the loaded unit descriptors, which we embed
over `RawPackage`, the shape of a loaded unit: ID, import path, the four
categorized file lists, and recursively structured imports.
-/

/-- A loaded unit descriptor as handed to `addPackage` (graph.go:72-123):
`pkg.ID`, `pkg.PkgPath`, `pkg.GoFiles`, `pkg.CompiledGoFiles`,
`pkg.IgnoredFiles`, `pkg.OtherFiles`, `pkg.Imports`. -/
inductive RawPackage where
  | mk (id pkgPath : String) (goFiles compiledGoFiles ignoredFiles otherFiles : List String)
      (imports : List RawPackage)

/-- The `ID` field of a loaded unit. -/
def RawPackage.id : RawPackage → String
  | .mk i _ _ _ _ _ _ => i

/-- The `PkgPath` field of a loaded unit. -/
def RawPackage.pkgPath : RawPackage → String
  | .mk _ p _ _ _ _ _ => p

/-- The concatenation of the four file lists iterated at graph.go:95-110. -/
def RawPackage.allFiles : RawPackage → List String
  | .mk _ _ gf cgf igf of _ => gf ++ cgf ++ igf ++ of

/-- The `Imports` of a loaded unit. -/
def RawPackage.imports : RawPackage → List RawPackage
  | .mk _ _ _ _ _ _ imps => imps

/-- Register one member file: `dg.fileMap[f] = newPackage` and
`dg.dirMap[filepath.Dir(f)][id] = newPackage` (graph.go:101-108). -/
def registerFile (id : String) (g : DependencyGraph) (f : String) : DependencyGraph :=
  { g with
    fileMap := setL g.fileMap f id
    dirMap := addDirEntry g.dirMap (dirname f) id }

/-- Record one import edge in both directions (graph.go:118-119):
`dependency.Dependents[pkg.ID] = newPackage` and
`newPackage.Dependencies[importedPkg.ID] = dependency`. -/
def addEdges (g : DependencyGraph) (pkgId impId : String) : DependencyGraph :=
  let g1 : DependencyGraph :=
    { g with
      packageMap := updateL g.packageMap impId
        (fun p => { p with dependents := insertId p.dependents pkgId }) }
  { g1 with
    packageMap := updateL g1.packageMap pkgId
      (fun p => { p with dependencies := insertId p.dependencies impId }) }

mutual

/-- `addPackage` (graph.go:73-123): return unchanged when the ID is already
registered; otherwise register the node in `packageMap`/`packagePathMap`,
index its files, then walk its imports. -/
def addPackage (g : DependencyGraph) : RawPackage → DependencyGraph
  | .mk i path gf cgf igf of imports =>
    if (lookupL g.packageMap i).isSome then g
    else
      let g1 : DependencyGraph :=
        { g with
          packageMap := setL g.packageMap i (Package.mk i path [] [])
          packagePathMap := appendPath g.packagePathMap path i }
      let g2 := (gf ++ cgf ++ igf ++ of).foldl (registerFile i) g1
      processImports g2 i imports

/-- The import loop of graph.go:112-120: recursively add each import, then
record the edge in both directions. -/
def processImports (g : DependencyGraph) (pkgId : String) : List RawPackage → DependencyGraph
  | [] => g
  | imp :: rest =>
    let g1 := addPackage g imp
    let g2 := addEdges g1 pkgId imp.id
    processImports g2 pkgId rest

end

/-- The empty `DependencyGraph` of graph.go:65-70. -/
def emptyDependencyGraph : DependencyGraph := ⟨[], [], [], []⟩

/-- The repository-side part of `BuildDependencyGraph` (graph.go:125-131): fold
`addPackage` over the externally loaded unit descriptors. -/
def BuildDependencyGraph (loadedPackages : List RawPackage) : DependencyGraph :=
  loadedPackages.foldl addPackage emptyDependencyGraph

/-!
## Expansion traces

To settle the performance claims about memoization we instrument the
`dependents(…, true)` recursion with a trace: the list of import paths it
expands (one entry per call of `dependents`), in call order.  The three trace
functions mirror `dependentsAux`/`dependentsPkgLoop`/`dependentsEdgeLoop`
line for line, recording `path` where the original enters `dependents(path)`
and dropping the accumulator plumbing.
-/

/-- Trace of the inner loop of graph.go:246-260: the expansions performed by
`g.dependents(depPkg.PkgPath, true)` for each edge, in order. -/
def traceEdgeLoop (recT : String → List String) : List Package → List String
  | [] => []
  | dep :: rest => recT dep.pkgPath ++ traceEdgeLoop recT rest

/-- Trace of the outer loop of graph.go:245. -/
def tracePkgLoop (g : DependencyGraph) (recT : String → List String) : List Package → List String
  | [] => []
  | p :: rest => traceEdgeLoop recT (pkgsOf g p.dependents) ++ tracePkgLoop g recT rest

/-- Paths expanded by `dependents(path, true)` (graph.go:238-263), in call
order: one entry per entry into the function. -/
def depExpandTrace (g : DependencyGraph) : Nat → String → List String
  | 0, _ => []
  | fuel + 1, path =>
    path ::
      (match lookupL g.packagePathMap path with
      | none => []
      | some ids => tracePkgLoop g (fun p => depExpandTrace g fuel p) (pkgsOf g ids))

/-- Paths expanded across one whole `AffectedPackages` invocation
(graph.go:194-207): one `dependents(pkg.PkgPath, true)` trace per directly
affected unit, concatenated in batch order. -/
def affectedExpandTrace (g : DependencyGraph) (fuel : Nat) (files : List String) : List String :=
  (directlyAffectedIds g files).foldl
    (fun acc id =>
      match lookupL g.packageMap id with
      | none => acc
      | some pkg => acc ++ depExpandTrace g fuel pkg.pkgPath)
    []

/-!
## Result assembly (gta.go)
-/

/-- `strings.HasSuffix`. -/
def strEndsWith (s suf : String) : Bool :=
  List.isSuffixOf suf.data s.data

/-- `strings.TrimSuffix`: drop `suf` from the end of `s` when present. -/
def strTrimSuffix (s suf : String) : String :=
  if strEndsWith s suf then String.mk (s.data.take (s.data.length - suf.data.length)) else s

/-- `sort.Slice(pkgPaths, func(i, j int) bool { return pkgPaths[i] < pkgPaths[j] })`
(gta.go:193-195): sort lexicographically. -/
def sortStrings (l : List String) : List String :=
  List.insertionSort (fun a b => a ≤ b) l

/-- The per-package normalization step inside `UniquePackagePaths`
(gta.go:177-186): fold an internal-test or test-binary suffix into the
base import path. -/
def normalizePkgPath (path : String) : String :=
  if strEndsWith path "_test" then strTrimSuffix path "_test"
  else if strEndsWith path ".test" then strTrimSuffix path ".test"
  else path

/-- `UniquePackagePaths` (gta.go:174-197): normalized, deduplicated
(map-keyed), lexicographically sorted import paths. -/
def UniquePackagePaths (pkgs : List Package) : List String :=
  sortStrings (pkgs.foldl (fun acc pkg => insertId acc (normalizePkgPath pkg.pkgPath)) [])

/-- The `Packages` result shape (gta.go:26-36), with `Dependencies` as an
association list. -/
structure Packages where
  dependencies : List (String × List Package)
  changes : List Package
  allChanges : List Package
deriving DecidableEq, Repr

/-- The serialized shape `packagesJSON` (gta.go:38-42).  `encoding/json`
round-trips this struct exactly, so the byte level is elided and
marshal/unmarshal are modelled down to this shape. -/
structure PackagesJSON where
  dependencies : List (String × List String)
  changes : List String
  allChanges : List String
deriving DecidableEq, Repr

/-- `mapify` (gta.go:199-205). -/
def mapify (m : List (String × List Package)) : List (String × List String) :=
  m.map (fun kv => (kv.1, UniquePackagePaths kv.2))

/-- `MarshalJSON` (gta.go:45-52), down to the `packagesJSON` value it encodes. -/
def Packages.marshalJSON (p : Packages) : PackagesJSON :=
  ⟨mapify p.dependencies, UniquePackagePaths p.changes, UniquePackagePaths p.allChanges⟩

/-- The path-only stand-in `&Package{Package: &packages.Package{PkgPath: v}}`
built by `UnmarshalJSON` (gta.go:66-75): no files, no edges, zero ID. -/
def standInPackage (path : String) : Package :=
  ⟨"", path, [], []⟩

/-- `UnmarshalJSON` (gta.go:56-79), from the decoded `packagesJSON` value. -/
def Packages.unmarshalJSON (s : PackagesJSON) : Packages :=
  ⟨s.dependencies.map (fun kv => (kv.1, kv.2.map standInPackage)),
   s.changes.map standInPackage,
   s.allChanges.map standInPackage⟩

/-- Encode then decode a result object (gta.go:45-79). -/
def roundTripPackages (p : Packages) : Packages :=
  Packages.unmarshalJSON (Packages.marshalJSON p)

/-!
## Basic lemmas about the map/set helpers
-/

theorem mem_insertId {l : List String} {i x : String} :
    x ∈ insertId l i ↔ x ∈ l ∨ x = i := by
  unfold insertId
  split
  · next h =>
    constructor
    · exact Or.inl
    · rintro (hx | rfl)
      · exact hx
      · exact h
  · simp [List.mem_append]

theorem subset_insertId {l : List String} {i : String} : l ⊆ insertId l i := by
  intro x hx
  exact mem_insertId.mpr (Or.inl hx)

theorem self_mem_insertId {l : List String} {i : String} : i ∈ insertId l i :=
  mem_insertId.mpr (Or.inr rfl)

theorem mem_unionIds {l1 l2 : List String} {x : String} :
    x ∈ unionIds l1 l2 ↔ x ∈ l1 ∨ x ∈ l2 := by
  induction l2 generalizing l1 with
  | nil => simp [unionIds]
  | cons a t ih =>
    show x ∈ unionIds (insertId l1 a) t ↔ _
    rw [ih, mem_insertId]
    simp only [List.mem_cons]
    tauto

theorem subset_unionIds_left {l1 l2 : List String} : l1 ⊆ unionIds l1 l2 :=
  fun _ hx => mem_unionIds.mpr (Or.inl hx)

theorem subset_unionIds_right {l1 l2 : List String} : l2 ⊆ unionIds l1 l2 :=
  fun _ hx => mem_unionIds.mpr (Or.inr hx)

theorem nodup_insertId {l : List String} {i : String} (h : l.Nodup) :
    (insertId l i).Nodup := by
  unfold insertId
  split
  · exact h
  · next hni => simp [List.nodup_append, h, hni]

theorem nodup_unionIds {l1 l2 : List String} (h : l1.Nodup) : (unionIds l1 l2).Nodup := by
  induction l2 generalizing l1 with
  | nil => exact h
  | cons a t ih => exact ih (nodup_insertId h)

theorem lookupL_mem {α : Type} {l : List (String × α)} {k : String} {v : α}
    (h : lookupL l k = some v) : (k, v) ∈ l := by
  induction l with
  | nil => simp [lookupL] at h
  | cons e rest ih =>
    obtain ⟨k', v'⟩ := e
    unfold lookupL at h
    split at h
    · next heq => cases h; cases heq; exact List.mem_cons_self _ _
    · exact List.mem_cons_of_mem _ (ih h)

theorem lookupL_isSome_of_mem {α : Type} {l : List (String × α)} {k : String} {v : α}
    (h : (k, v) ∈ l) : (lookupL l k).isSome := by
  induction l with
  | nil => simp at h
  | cons e rest ih =>
    obtain ⟨k', v'⟩ := e
    unfold lookupL
    split
    · simp
    · next hne =>
      rcases List.mem_cons.mp h with heq | hmem
      · cases heq; simp at hne
      · exact ih hmem

/-!
## Lemmas about the query loops
-/

theorem mem_pkgsOf {g : DependencyGraph} {ids : List String} {p : Package} :
    p ∈ pkgsOf g ids ↔ ∃ id, id ∈ ids ∧ lookupL g.packageMap id = some p := by
  simp [pkgsOf, List.mem_filterMap]

theorem edgeLoop_subset {rec : String → Except GraphErr (List String)} {r : Bool}
    {deps : List Package} {acc res : List String}
    (h : edgeLoop rec r deps acc = .ok res) : ∀ x ∈ acc, x ∈ res := by
  induction deps generalizing acc with
  | nil =>
    unfold edgeLoop at h
    injection h with h
    subst h
    exact fun x hx => hx
  | cons d rest ih =>
    unfold edgeLoop at h
    split at h
    · cases hrec : rec d.pkgPath with
      | error e => rw [hrec] at h; cases h
      | ok sub =>
        rw [hrec] at h
        exact fun x hx => ih h x (subset_unionIds_left (subset_insertId hx))
    · exact fun x hx => ih h x (subset_insertId hx)

theorem pkgLoop_subset {g : DependencyGraph} {edgesOf : Package → List String}
    {rec : String → Except GraphErr (List String)} {r : Bool}
    {pkgs : List Package} {acc res : List String}
    (h : pkgLoop g edgesOf rec r pkgs acc = .ok res) : ∀ x ∈ acc, x ∈ res := by
  induction pkgs generalizing acc with
  | nil =>
    unfold pkgLoop at h
    injection h with h
    subst h
    exact fun x hx => hx
  | cons p rest ih =>
    unfold pkgLoop at h
    cases hel : edgeLoop rec r (pkgsOf g (edgesOf p)) acc with
    | error e => rw [hel] at h; cases h
    | ok acc2 =>
      rw [hel] at h
      exact fun x hx => ih h x (edgeLoop_subset hel x hx)

theorem edgeLoop_mem {rec : String → Except GraphErr (List String)}
    {deps : List Package} {acc res : List String}
    (h : edgeLoop rec true deps acc = .ok res) :
    ∀ d ∈ deps, d.id ∈ res ∧ ∃ sub, rec d.pkgPath = .ok sub ∧ ∀ x ∈ sub, x ∈ res := by
  induction deps generalizing acc with
  | nil => intro d hd; simp at hd
  | cons d0 rest ih =>
    unfold edgeLoop at h
    rw [if_pos rfl] at h
    cases hrec : rec d0.pkgPath with
    | error e => rw [hrec] at h; cases h
    | ok sub =>
      rw [hrec] at h
      intro d hd
      rcases List.mem_cons.mp hd with rfl | hmem
      · refine ⟨edgeLoop_subset h _ (subset_unionIds_left self_mem_insertId),
          sub, hrec, fun x hx => edgeLoop_subset h x (subset_unionIds_right hx)⟩
      · exact ih h d hmem

theorem pkgLoop_mem {g : DependencyGraph} {edgesOf : Package → List String}
    {rec : String → Except GraphErr (List String)}
    {pkgs : List Package} {acc res : List String}
    (h : pkgLoop g edgesOf rec true pkgs acc = .ok res) :
    ∀ p ∈ pkgs, ∀ d ∈ pkgsOf g (edgesOf p),
      d.id ∈ res ∧ ∃ sub, rec d.pkgPath = .ok sub ∧ ∀ x ∈ sub, x ∈ res := by
  induction pkgs generalizing acc with
  | nil => intro p hp; simp at hp
  | cons p0 rest ih =>
    unfold pkgLoop at h
    cases hel : edgeLoop rec true (pkgsOf g (edgesOf p0)) acc with
    | error e => rw [hel] at h; cases h
    | ok acc2 =>
      rw [hel] at h
      intro p hp d hd
      rcases List.mem_cons.mp hp with rfl | hmem
      · obtain ⟨hid, sub, hsub, hss⟩ := edgeLoop_mem hel d hd
        exact ⟨pkgLoop_subset h _ hid, sub, hsub, fun x hx => pkgLoop_subset h x (hss x hx)⟩
      · exact ih h p hmem d hd

/-!
## Well-formedness and reachability

`WFgraph` captures two invariants that `BuildDependencyGraph` establishes for
every node it stores (graph.go:93-94): the stored package's `ID` equals its
key, and the package is listed under its own `PkgPath` in `packagePathMap`.
-/

/-- Node/index consistency of a graph (decidable, checked entry-wise): each
stored package's `ID` is its key and it is listed in `packagePathMap` under
its own `PkgPath`; conversely, every ID listed under a path resolves to a
stored package with that `PkgPath`. -/
def WFgraph (g : DependencyGraph) : Bool :=
  g.packageMap.all (fun e =>
    e.2.id == e.1 &&
    (match lookupL g.packagePathMap e.2.pkgPath with
     | none => false
     | some l => l.contains e.1)) &&
  g.packagePathMap.all (fun e =>
    e.2.all (fun id =>
      match lookupL g.packageMap id with
      | none => false
      | some p => p.pkgPath == e.1))

theorem WFgraph_id {g : DependencyGraph} {id : String} {p : Package}
    (hwf : WFgraph g = true) (h : lookupL g.packageMap id = some p) : p.id = id := by
  have hmem := lookupL_mem h
  rw [WFgraph, Bool.and_eq_true] at hwf
  have := (List.all_eq_true.mp hwf.1) _ hmem
  simp only [Bool.and_eq_true, beq_iff_eq] at this
  exact this.1

theorem WFgraph_path {g : DependencyGraph} {id : String} {p : Package}
    (hwf : WFgraph g = true) (h : lookupL g.packageMap id = some p) :
    ∃ l, lookupL g.packagePathMap p.pkgPath = some l ∧ id ∈ l := by
  have hmem := lookupL_mem h
  rw [WFgraph, Bool.and_eq_true] at hwf
  have hh := (List.all_eq_true.mp hwf.1) _ hmem
  simp only [Bool.and_eq_true, beq_iff_eq] at hh
  obtain ⟨-, hh⟩ := hh
  cases hp : lookupL g.packagePathMap p.pkgPath with
  | none => rw [hp] at hh; cases hh
  | some l =>
    rw [hp] at hh
    exact ⟨l, rfl, by simpa [List.contains, List.elem_iff] using hh⟩

theorem WFgraph_resolve {g : DependencyGraph} {path : String} {l : List String} {id : String}
    (hwf : WFgraph g = true) (h : lookupL g.packagePathMap path = some l) (hid : id ∈ l) :
    ∃ p, lookupL g.packageMap id = some p ∧ p.pkgPath = path := by
  have hmem := lookupL_mem h
  rw [WFgraph, Bool.and_eq_true] at hwf
  have hh := (List.all_eq_true.mp hwf.2) _ hmem
  have hh2 := (List.all_eq_true.mp hh) _ hid
  cases hp : lookupL g.packageMap id with
  | none => rw [hp] at hh2; cases hh2
  | some p =>
    rw [hp] at hh2
    exact ⟨p, rfl, by simpa using hh2⟩

/-- One dependent edge between registered units: `b` is listed in `a`'s
`Dependents` set and both `a` and `b` are stored nodes. -/
def depEdge (g : DependencyGraph) (a b : String) : Prop :=
  ∃ p q, lookupL g.packageMap a = some p ∧ lookupL g.packageMap b = some q ∧ b ∈ p.dependents

/-- `b` is reachable from `a` along one or more dependent edges. -/
def depReach (g : DependencyGraph) : String → String → Prop :=
  Relation.TransGen (depEdge g)

/-- Completeness of the recursive `dependents` walk: when it succeeds, the
result contains every unit reachable along dependent edges from any stored
unit whose import path is the queried one. -/
theorem dependentsAux_complete {g : DependencyGraph} (hwf : WFgraph g = true) :
    ∀ (fuel : Nat) (path : String) (res : List String),
    dependentsAux g fuel path true = .ok res →
    ∀ (id : String) (p : Package), lookupL g.packageMap id = some p → p.pkgPath = path →
    ∀ v, depReach g id v → v ∈ res := by
  intro fuel
  induction fuel with
  | zero => intro path res h; cases h
  | succ fuel ih =>
    intro path res h id p hp hpath v hreach
    unfold dependentsAux at h
    cases hl : lookupL g.packagePathMap path with
    | none => rw [hl] at h; cases h
    | some ids =>
      rw [hl] at h
      obtain ⟨l, hl', hidl⟩ := WFgraph_path hwf hp
      rw [hpath, hl] at hl'
      injection hl' with hl'
      subst hl'
      have hpmem : p ∈ pkgsOf g ids := mem_pkgsOf.mpr ⟨id, hidl, hp⟩
      obtain ⟨w, hwedge, hwrest⟩ := Relation.TransGen.head'_iff.mp hreach
      rcases Relation.reflTransGen_iff_eq_or_transGen.mp hwrest with rfl | hwreach
      · obtain ⟨p', q, hp', hq, hv⟩ := hwedge
        rw [hp] at hp'
        injection hp' with hp'
        subst hp'
        have hqmem : q ∈ pkgsOf g p.dependents := mem_pkgsOf.mpr ⟨v, hv, hq⟩
        have := (pkgLoop_mem h p hpmem q hqmem).1
        rwa [WFgraph_id hwf hq] at this
      · obtain ⟨p', q, hp', hq, hw⟩ := hwedge
        rw [hp] at hp'
        injection hp' with hp'
        subst hp'
        have hqmem : q ∈ pkgsOf g p.dependents := mem_pkgsOf.mpr ⟨w, hw, hq⟩
        obtain ⟨-, sub, hsub, hss⟩ := pkgLoop_mem h p hpmem q hqmem
        exact hss v (ih q.pkgPath sub hsub w q hq rfl v hwreach)

/-- What a successful `affectedLoop` run guarantees: the accumulated
`allAffected` set survives into the final `transitive` set, and every unit in
the final `direct` list was either passed in or was processed with a
successful `dependents` expansion whose result is contained in `transitive`. -/
theorem affectedLoop_spec {g : DependencyGraph} {fuel : Nat} :
    ∀ {ids direct allAffected : List String} {d t : List String},
    affectedLoop g fuel ids direct allAffected = .ok (d, t) →
    (∀ x ∈ allAffected, x ∈ t) ∧
    (∀ id ∈ d, id ∈ direct ∨
      (id ∈ t ∧ ∃ pkg sub, lookupL g.packageMap id = some pkg ∧
        dependentsAux g fuel pkg.pkgPath true = .ok sub ∧ ∀ x ∈ sub, x ∈ t)) := by
  intro ids
  induction ids with
  | nil =>
    intro direct allAffected d t h
    unfold affectedLoop at h
    injection h with h
    injection h with h1 h2
    subst h1
    subst h2
    exact ⟨fun x hx => hx, fun id hid => Or.inl hid⟩
  | cons id0 rest ih =>
    intro direct allAffected d t h
    unfold affectedLoop at h
    split at h
    · exact ih h
    · next pkg hpm =>
      split at h
      · cases h
      · next sub hdep =>
        obtain ⟨iht, ihd⟩ := ih h
        refine ⟨fun x hx => iht x (subset_unionIds_left (subset_insertId hx)), ?_⟩
        intro id hid
        rcases ihd id hid with hdir | hrec
        · rcases List.mem_append.mp hdir with hdir | hdir
          · exact Or.inl hdir
          · rcases List.mem_singleton.mp hdir with rfl
            refine Or.inr ⟨iht _ (subset_unionIds_left self_mem_insertId),
              pkg, sub, hpm, hdep, fun x hx => iht x (subset_unionIds_right hx)⟩
        · exact Or.inr hrec

/-!
## Concrete graphs used by the claims

`gChain` is the A→B→C example of §8.1 of the spec (A imports B, B imports C).
`gDiamond` is the diamond of §8.2 (A and B import D, C imports A and B).
`gShared` has Z importing both X and Y.  All three are produced by the
embedded `BuildDependencyGraph` from loaded unit descriptors.
-/

/-- Loaded descriptor for unit C of the chain example. -/
def rawChainC : RawPackage := .mk "C" "c" ["c/f.go"] [] [] [] []

/-- Loaded descriptor for unit B of the chain example (imports C). -/
def rawChainB : RawPackage := .mk "B" "b" ["b/f.go"] [] [] [] [rawChainC]

/-- Loaded descriptor for unit A of the chain example (imports B). -/
def rawChainA : RawPackage := .mk "A" "a" ["a/f.go"] [] [] [] [rawChainB]

/-- The graph for the chain A imports B imports C. -/
def gChain : DependencyGraph := BuildDependencyGraph [rawChainA]

/-- Loaded descriptor for unit D of the diamond example. -/
def rawDiaD : RawPackage := .mk "D" "d" ["d/f.go"] [] [] [] []

/-- Loaded descriptor for unit A of the diamond example (imports D). -/
def rawDiaA : RawPackage := .mk "A" "a" ["a/f.go"] [] [] [] [rawDiaD]

/-- Loaded descriptor for unit B of the diamond example (imports D). -/
def rawDiaB : RawPackage := .mk "B" "b" ["b/f.go"] [] [] [] [rawDiaD]

/-- Loaded descriptor for unit C of the diamond example (imports A and B). -/
def rawDiaC : RawPackage := .mk "C" "c" ["c/f.go"] [] [] [] [rawDiaA, rawDiaB]

/-- The diamond graph: A and B import D; C imports A and B. -/
def gDiamond : DependencyGraph := BuildDependencyGraph [rawDiaC]

/-- Loaded descriptor for unit X of the shared-dependent example. -/
def rawShX : RawPackage := .mk "X" "x" ["x/f.go"] [] [] [] []

/-- Loaded descriptor for unit Y of the shared-dependent example. -/
def rawShY : RawPackage := .mk "Y" "y" ["y/f.go"] [] [] [] []

/-- Loaded descriptor for unit Z of the shared-dependent example (imports X
and Y). -/
def rawShZ : RawPackage := .mk "Z" "z" ["z/f.go"] [] [] [] [rawShX, rawShY]

/-- The shared-dependent graph: Z imports both X and Y. -/
def gShared : DependencyGraph := BuildDependencyGraph [rawShZ]

/-!
## Termination of the queries under the DAG precondition

The DAG precondition is rendered as a rank function on import paths that
strictly increases along dependent edges; any finite DAG admits one.  With
ranks bounded by `n` and more than `n` fuel, the walk cannot exhaust its fuel.
-/

theorem edgeLoop_ok (rec : String → Except GraphErr (List String)) :
    ∀ {deps : List Package} {acc : List String},
    (∀ dp ∈ deps, ∃ s, rec dp.pkgPath = .ok s) →
    ∃ r, edgeLoop rec true deps acc = .ok r := by
  intro deps
  induction deps with
  | nil => exact fun _ => ⟨_, rfl⟩
  | cons d rest ih =>
    intro acc hall
    obtain ⟨s, hs⟩ := hall d (List.mem_cons_self _ _)
    obtain ⟨r, hr⟩ := ih (fun dp hdp => hall dp (List.mem_cons_of_mem _ hdp))
    refine ⟨r, ?_⟩
    unfold edgeLoop
    rw [if_pos rfl, hs]
    exact hr

theorem pkgLoop_ok (g : DependencyGraph) (edgesOf : Package → List String)
    (rec : String → Except GraphErr (List String)) :
    ∀ {pkgs : List Package} {acc : List String},
    (∀ p ∈ pkgs, ∀ dp ∈ pkgsOf g (edgesOf p), ∃ s, rec dp.pkgPath = .ok s) →
    ∃ r, pkgLoop g edgesOf rec true pkgs acc = .ok r := by
  intro pkgs
  induction pkgs with
  | nil => exact fun _ => ⟨_, rfl⟩
  | cons p rest ih =>
    intro acc hall
    obtain ⟨acc2, hacc2⟩ := edgeLoop_ok rec (hall p (List.mem_cons_self _ _))
    obtain ⟨r, hr⟩ := ih (fun p' hp' => hall p' (List.mem_cons_of_mem _ hp'))
    refine ⟨r, ?_⟩
    unfold pkgLoop
    rw [hacc2]
    exact hr

/-- With a rank function witnessing the DAG precondition, ranks bounded by
`n`, and fuel exceeding the remaining rank budget, the recursive `dependents`
walk returns a result. -/
theorem dependentsAux_ok {g : DependencyGraph} {rank : String → Nat} {n : Nat}
    (hwf : WFgraph g = true)
    (hrank : ∀ eP ∈ g.packageMap, ∀ dId ∈ eP.2.dependents, ∀ eQ ∈ g.packageMap,
      eQ.1 = dId → rank eP.2.pkgPath < rank eQ.2.pkgPath)
    (hbound : ∀ e ∈ g.packagePathMap, rank e.1 ≤ n) :
    ∀ (fuel : Nat) (path : String), (lookupL g.packagePathMap path).isSome →
    n < fuel + rank path →
    ∃ res, dependentsAux g fuel path true = .ok res := by
  intro fuel
  induction fuel with
  | zero =>
    intro path hsome hn
    obtain ⟨l, hl⟩ := Option.isSome_iff_exists.mp hsome
    have hrb : rank path ≤ n := hbound _ (lookupL_mem hl)
    omega
  | succ fuel ih =>
    intro path hsome hn
    obtain ⟨ids, hl⟩ := Option.isSome_iff_exists.mp hsome
    have hloop : ∀ p ∈ pkgsOf g ids, ∀ dp ∈ pkgsOf g p.dependents,
        ∃ s, dependentsAux g fuel dp.pkgPath true = .ok s := by
      intro p hp dp hdp
      obtain ⟨idp, hidp, hplook⟩ := mem_pkgsOf.mp hp
      obtain ⟨idd, hidd, hdlook⟩ := mem_pkgsOf.mp hdp
      obtain ⟨pp, hpp, hpppath⟩ := WFgraph_resolve hwf hl hidp
      rw [hplook] at hpp
      injection hpp with hpp
      subst hpp
      have hrk : rank p.pkgPath < rank dp.pkgPath :=
        hrank _ (lookupL_mem hplook) _ hidd _ (lookupL_mem hdlook) rfl
      obtain ⟨l2, hl2, -⟩ := WFgraph_path hwf hdlook
      exact ih dp.pkgPath (by rw [hl2]; rfl) (by rw [hpppath] at hrk; omega)
    obtain ⟨res, hres⟩ :=
      pkgLoop_ok g Package.dependents (fun p => dependentsAux g fuel p true) hloop
    refine ⟨res, ?_⟩
    unfold dependentsAux
    rw [hl]
    exact hres

/-- With the DAG precondition, `affectedLoop` — and hence `AffectedPackages` —
returns a result whenever the fuel exceeds the rank budget. -/
theorem affectedLoop_ok {g : DependencyGraph} {rank : String → Nat} {n : Nat}
    (hwf : WFgraph g = true)
    (hrank : ∀ eP ∈ g.packageMap, ∀ dId ∈ eP.2.dependents, ∀ eQ ∈ g.packageMap,
      eQ.1 = dId → rank eP.2.pkgPath < rank eQ.2.pkgPath)
    (hbound : ∀ e ∈ g.packagePathMap, rank e.1 ≤ n)
    {fuel : Nat} (hfuel : n < fuel) :
    ∀ (ids direct allAffected : List String),
    ∃ d t, affectedLoop g fuel ids direct allAffected = .ok (d, t) := by
  intro ids
  induction ids with
  | nil => exact fun direct allAffected => ⟨direct, allAffected, rfl⟩
  | cons id0 rest ih =>
    intro direct allAffected
    cases hpm : lookupL g.packageMap id0 with
    | none =>
      obtain ⟨d, t, h⟩ := ih direct allAffected
      refine ⟨d, t, ?_⟩
      unfold affectedLoop
      rw [hpm]
      exact h
    | some pkg =>
      obtain ⟨l, hl, -⟩ := WFgraph_path hwf hpm
      obtain ⟨sub, hsub⟩ := dependentsAux_ok hwf hrank hbound fuel pkg.pkgPath
        (by rw [hl]; rfl) (by omega)
      obtain ⟨d, t, h⟩ := ih (direct ++ [id0]) (unionIds (insertId allAffected id0) sub)
      refine ⟨d, t, ?_⟩
      unfold affectedLoop
      rw [hpm]
      show (match dependentsAux g fuel pkg.pkgPath true with
        | Except.error e => Except.error e
        | Except.ok deps =>
          affectedLoop g fuel rest (direct ++ [id0])
            (unionIds (insertId allAffected id0) deps)) = Except.ok (d, t)
      rw [hsub]
      exact h

/-!
## Claim C1
-/

/-- A rank function witnessing acyclicity of the chain graph. -/
def chainRank : String → Nat :=
  fun s => if s = "a" then 2 else if s = "b" then 1 else 0

/-- C1: for every dependency graph satisfying the DAG precondition — rendered
as a rank function on import paths that strictly increases along dependent
edges and is bounded by `n`, with more than `n` fuel — and every changed-file
list, `AffectedPackages` succeeds, its `transitive` result contains the
`direct` set, and every unit reachable by following dependent edges
transitively from a unit of the `direct` set appears in `transitive` (and
hence in `AllChanges`, which gta.go:154 sets to exactly this result).
Concretely, in the chain where A imports B and B imports C, marking C's file
changed yields `direct = {C}` and `transitive = {A, B, C}`. -/
theorem C1_affectedPackages_sound
    (g : DependencyGraph) (fuel n : Nat) (files : List String) (rank : String → Nat)
    (hwf : WFgraph g = true)
    (hrank : ∀ eP ∈ g.packageMap, ∀ dId ∈ eP.2.dependents, ∀ eQ ∈ g.packageMap,
      eQ.1 = dId → rank eP.2.pkgPath < rank eQ.2.pkgPath)
    (hbound : ∀ e ∈ g.packagePathMap, rank e.1 ≤ n)
    (hfuel : n < fuel) :
    (∃ d t, g.AffectedPackages fuel files = .ok (d, t) ∧
      (∀ id ∈ d, id ∈ t) ∧
      (∀ id ∈ d, ∀ v, depReach g id v → v ∈ t)) ∧
    gChain.AffectedPackages 10 ["c/f.go"] = .ok (["C"], ["C", "B", "A"]) := by
  constructor
  · obtain ⟨d, t, h⟩ :=
      affectedLoop_ok hwf hrank hbound hfuel (directlyAffectedIds g files) [] []
    refine ⟨d, t, h, ?_, ?_⟩
    · intro id hid
      rcases (affectedLoop_spec h).2 id hid with hin | hin
      · simp at hin
      · exact hin.1
    · intro id hid v hv
      rcases (affectedLoop_spec h).2 id hid with hin | hin
      · simp at hin
      · obtain ⟨-, pkg, sub, hpm, hdep, hsub⟩ := hin
        exact hsub v (dependentsAux_complete hwf fuel pkg.pkgPath sub hdep id pkg hpm rfl v hv)
  · rfl

/-- Witness for C1: the chain graph with an explicit rank function satisfies
every hypothesis, and the conclusion holds there. -/
theorem C1_affectedPackages_sound_witness :
    (∃ d t, gChain.AffectedPackages 10 ["c/f.go"] = .ok (d, t) ∧
      (∀ id ∈ d, id ∈ t) ∧
      (∀ id ∈ d, ∀ v, depReach gChain id v → v ∈ t)) ∧
    gChain.AffectedPackages 10 ["c/f.go"] = .ok (["C"], ["C", "B", "A"]) :=
  C1_affectedPackages_sound gChain 10 2 ["c/f.go"] chainRank
    (by decide) (by decide) (by decide) (by decide)

/-!
## Deduplication of the result maps

The Go result containers are ID-keyed maps, so the ID sets they denote are
duplicate-free; in the embedding this is the `Nodup`-ness of the insert-based
accumulators.
-/

theorem edgeLoop_nodup {rec : String → Except GraphErr (List String)} {r : Bool} :
    ∀ {deps : List Package} {acc res : List String}, acc.Nodup →
    edgeLoop rec r deps acc = .ok res → res.Nodup := by
  intro deps
  induction deps with
  | nil =>
    intro acc res hacc h
    injection h with h
    subst h
    exact hacc
  | cons d rest ih =>
    intro acc res hacc h
    unfold edgeLoop at h
    split at h
    · cases hrec : rec d.pkgPath with
      | error e => rw [hrec] at h; cases h
      | ok sub =>
        rw [hrec] at h
        exact ih (nodup_unionIds (nodup_insertId hacc)) h
    · exact ih (nodup_insertId hacc) h

theorem pkgLoop_nodup {g : DependencyGraph} {edgesOf : Package → List String}
    {rec : String → Except GraphErr (List String)} {r : Bool} :
    ∀ {pkgs : List Package} {acc res : List String}, acc.Nodup →
    pkgLoop g edgesOf rec r pkgs acc = .ok res → res.Nodup := by
  intro pkgs
  induction pkgs with
  | nil =>
    intro acc res hacc h
    injection h with h
    subst h
    exact hacc
  | cons p rest ih =>
    intro acc res hacc h
    unfold pkgLoop at h
    cases hel : edgeLoop rec r (pkgsOf g (edgesOf p)) acc with
    | error e => rw [hel] at h; cases h
    | ok acc2 =>
      rw [hel] at h
      exact ih (edgeLoop_nodup hacc hel) h

theorem dependentsAux_nodup {g : DependencyGraph} {fuel : Nat} {path : String} {r : Bool}
    {res : List String} (h : dependentsAux g fuel path r = .ok res) : res.Nodup := by
  cases fuel with
  | zero => cases h
  | succ fuel =>
    unfold dependentsAux at h
    cases hl : lookupL g.packagePathMap path with
    | none => rw [hl] at h; cases h
    | some ids =>
      rw [hl] at h
      exact pkgLoop_nodup List.nodup_nil h

theorem affectedLoop_nodup {g : DependencyGraph} {fuel : Nat} :
    ∀ {ids direct allAffected : List String} {d t : List String}, allAffected.Nodup →
    affectedLoop g fuel ids direct allAffected = .ok (d, t) → t.Nodup := by
  intro ids
  induction ids with
  | nil =>
    intro direct allAffected d t hacc h
    injection h with h
    injection h with h1 h2
    subst h2
    exact hacc
  | cons id0 rest ih =>
    intro direct allAffected d t hacc h
    unfold affectedLoop at h
    split at h
    · exact ih hacc h
    · split at h
      · cases h
      · exact ih (nodup_unionIds (nodup_insertId hacc)) h

/-!
## Claim C2

The recursion of `dependents` (graph.go:238-263) deduplicates its *result*
map, but performs no memoization: nothing skips the recursive expansion of a
unit whose ID is already present in the map.  On the diamond graph (A and
B import D, C imports A and B), expanding D's dependents enters
`dependents("c", true)` twice — once below A and once below B — so the
expansion count (5) exceeds the visited-node count (4).
-/

/-- Counterexample to C2: on the diamond graph of the claim itself, the
`dependents` walk from D expands unit C's import path twice — the second time
when C's ID is already present in the result map — and performs 5 expansions
on a 4-node graph, so the recursion does not "skip re-expansion of any unit
ID already present" and the expansion count is not bounded by the
visited-node count. -/
theorem C2_counterexample :
    depExpandTrace gDiamond 20 "d" = ["d", "a", "c", "b", "c"] ∧
    (depExpandTrace gDiamond 20 "d").count "c" = 2 ∧
    (depExpandTrace gDiamond 20 "d").length = 5 ∧
    gDiamond.packageMap.length = 4 := by
  refine ⟨rfl, by decide, rfl, rfl⟩

/-- C2 as amended: the recursion accumulates into an ID-keyed result map, so
any successful result is deduplicated by unit ID, and on the diamond graph
changing D yields `transitive ⊇ {A, B, C, D}`; but already-present unit IDs
are re-expanded (unit C is expanded once per incoming path), so the number of
node expansions is not bounded by the visited-node count. -/
theorem C2_amended :
    (∀ (g : DependencyGraph) (fuel : Nat) (path : String) (r : Bool) (res : List String),
      dependentsAux g fuel path r = .ok res → res.Nodup) ∧
    gDiamond.AffectedPackages 20 ["d/f.go"] = .ok (["D"], ["D", "A", "C", "B"]) ∧
    (depExpandTrace gDiamond 20 "d").count "c" = 2 ∧
    (depExpandTrace gDiamond 20 "d").length = 5 ∧
    gDiamond.packageMap.length = 4 :=
  ⟨fun _ _ _ _ _ h => dependentsAux_nodup h, rfl, by decide, rfl, rfl⟩

/-- Witness for C2's amended statement: instantiating the deduplication part
on the diamond graph's own `dependents` run. -/
theorem C2_amended_witness :
    (["A", "C", "B"] : List String).Nodup ∧
    gDiamond.AffectedPackages 20 ["d/f.go"] = .ok (["D"], ["D", "A", "C", "B"]) :=
  ⟨C2_amended.1 gDiamond 20 "d" true ["A", "C", "B"] rfl, C2_amended.2.1⟩

/-!
## Claim C3

`AffectedPackages` (graph.go:194-208) runs one independent
`dependents(pkg.PkgPath, true)` per directly affected unit.  The `allAffected`
result map is shared across the batch, but the recursion itself is not: a
unit expanded while processing one directly affected unit is expanded again
while processing another.
-/

/-- Counterexample to C3: in the graph where Z imports both X and Y, marking
files of X and Y changed makes `AffectedPackages` expand unit Z once while
processing X and again while processing Y — the batch trace is
`[x, z, y, z]`, so the per-invocation memoization the claim describes does
not exist. -/
theorem C3_counterexample :
    affectedExpandTrace gShared 20 ["x/f.go", "y/f.go"] = ["x", "z", "y", "z"] ∧
    (affectedExpandTrace gShared 20 ["x/f.go", "y/f.go"]).count "z" = 2 := by
  refine ⟨rfl, by decide⟩

/-- C3 as amended: within one `AffectedPackages` invocation the `allAffected`
result map is shared across the whole batch — so the returned `transitive`
set is deduplicated even when several directly affected units share
dependents — but the transitive-dependents computation itself is invoked
independently per directly affected unit, re-expanding shared units (Z is
expanded twice in the batch trace). -/
theorem C3_amended :
    (∀ (g : DependencyGraph) (fuel : Nat) (files : List String) (d t : List String),
      g.AffectedPackages fuel files = .ok (d, t) → t.Nodup) ∧
    gShared.AffectedPackages 20 ["x/f.go", "y/f.go"] = .ok (["X", "Y"], ["X", "Z", "Y"]) ∧
    (affectedExpandTrace gShared 20 ["x/f.go", "y/f.go"]).count "z" = 2 :=
  ⟨fun _ _ _ _ _ h => affectedLoop_nodup List.nodup_nil h, rfl, by decide⟩

/-- Witness for C3's amended statement: instantiating the deduplication part
on the shared-dependent graph's own batch run. -/
theorem C3_amended_witness :
    (["X", "Z", "Y"] : List String).Nodup ∧
    gShared.AffectedPackages 20 ["x/f.go", "y/f.go"] = .ok (["X", "Y"], ["X", "Z", "Y"]) :=
  ⟨C3_amended.1 gShared 20 ["x/f.go", "y/f.go"] ["X", "Y"] ["X", "Z", "Y"] rfl,
   C3_amended.2.1⟩

/-!
## Claim C4
-/

/-- C4: for every graph and every import path with no registered variant
(`packagePathMap` has no entry), each of the four public queries
(graph.go:139-172) returns `ErrUnknownPackage` and no result.  The positive
amount of fuel only rules out the artificial out-of-fuel outcome of the
embedding, which does not exist in the Go code. -/
theorem C4_unknown_path (g : DependencyGraph) (fuel : Nat) (path : String)
    (hfuel : 0 < fuel) (h : lookupL g.packagePathMap path = none) :
    g.Dependencies fuel path = .error ErrUnknownPackage ∧
    g.Dependents fuel path = .error ErrUnknownPackage ∧
    g.TransitiveDependencies fuel path = .error ErrUnknownPackage ∧
    g.TransitiveDependents fuel path = .error ErrUnknownPackage := by
  cases fuel with
  | zero => omega
  | succ fuel =>
    refine ⟨?_, ?_, ?_, ?_⟩ <;>
      simp [DependencyGraph.Dependencies, DependencyGraph.Dependents,
        DependencyGraph.TransitiveDependencies, DependencyGraph.TransitiveDependents,
        dependenciesAux, dependentsAux, h, ErrUnknownPackage]

/-- Witness for C4: the chain graph with an unregistered path. -/
theorem C4_unknown_path_witness :
    gChain.Dependencies 1 "nonexistent/path" = .error ErrUnknownPackage ∧
    gChain.Dependents 1 "nonexistent/path" = .error ErrUnknownPackage ∧
    gChain.TransitiveDependencies 1 "nonexistent/path" = .error ErrUnknownPackage ∧
    gChain.TransitiveDependents 1 "nonexistent/path" = .error ErrUnknownPackage :=
  C4_unknown_path gChain 1 "nonexistent/path" (by decide) (by decide)

/-!
## Claim C5
-/

/-- The way a changed file `f` marks a unit `x` as directly affected
(graph.go:178-191): an exact `fileMap` hit, or — only when the exact lookup
misses — membership in the `dirMap` entry for `f`'s directory. -/
def directHit (g : DependencyGraph) (f x : String) : Prop :=
  lookupL g.fileMap f = some x ∨
  (lookupL g.fileMap f = none ∧
    ∃ ids, lookupL g.dirMap (dirname f) = some ids ∧ x ∈ ids)

theorem mem_directStep {g : DependencyGraph} {acc : List String} {f x : String} :
    x ∈ directStep g acc f ↔ x ∈ acc ∨ directHit g f x := by
  unfold directStep directHit
  cases hf : lookupL g.fileMap f with
  | some id => simp [mem_insertId, eq_comm]
  | none =>
    cases hd : lookupL g.dirMap (dirname f) with
    | some ids =>
      show x ∈ unionIds acc ids ↔ _
      rw [mem_unionIds]
      simp
    | none => simp

theorem nodup_directStep {g : DependencyGraph} {acc : List String} {f : String}
    (h : acc.Nodup) : (directStep g acc f).Nodup := by
  unfold directStep
  cases lookupL g.fileMap f with
  | some id => exact nodup_insertId h
  | none =>
    cases lookupL g.dirMap (dirname f) with
    | some ids => exact nodup_unionIds h
    | none => exact h

theorem mem_foldl_directStep {g : DependencyGraph} :
    ∀ {files : List String} {acc : List String} {x : String},
    x ∈ files.foldl (directStep g) acc ↔ x ∈ acc ∨ ∃ f, f ∈ files ∧ directHit g f x := by
  intro files
  induction files with
  | nil => simp
  | cons f0 rest ih =>
    intro acc x
    show x ∈ rest.foldl (directStep g) (directStep g acc f0) ↔ _
    rw [ih, mem_directStep]
    simp only [List.mem_cons]
    constructor
    · rintro ((hx | hx) | ⟨f, hf, hhit⟩)
      · exact Or.inl hx
      · exact Or.inr ⟨f0, Or.inl rfl, hx⟩
      · exact Or.inr ⟨f, Or.inr hf, hhit⟩
    · rintro (hx | ⟨f, (rfl | hf), hhit⟩)
      · exact Or.inl (Or.inl hx)
      · exact Or.inl (Or.inr hhit)
      · exact Or.inr ⟨f, hf, hhit⟩

theorem nodup_foldl_directStep {g : DependencyGraph} :
    ∀ {files : List String} {acc : List String}, acc.Nodup →
    (files.foldl (directStep g) acc).Nodup := by
  intro files
  induction files with
  | nil => exact fun h => h
  | cons f0 rest ih => exact fun h => ih (nodup_directStep h)

/-- The `direct` output of a successful `affectedLoop` run over resolvable
IDs is the input ID list appended to the initial accumulator. -/
theorem affectedLoop_direct {g : DependencyGraph} {fuel : Nat} :
    ∀ {ids direct allAffected d t : List String},
    (∀ id ∈ ids, (lookupL g.packageMap id).isSome) →
    affectedLoop g fuel ids direct allAffected = .ok (d, t) →
    d = direct ++ ids := by
  intro ids
  induction ids with
  | nil =>
    intro direct allAffected d t _ h
    injection h with h
    injection h with h1 h2
    subst h1
    simp
  | cons id0 rest ih =>
    intro direct allAffected d t hres h
    unfold affectedLoop at h
    split at h
    · next hpm =>
      have := hres id0 (List.mem_cons_self _ _)
      rw [hpm] at this
      cases this
    · split at h
      · cases h
      · have := ih (fun id hid => hres id (List.mem_cons_of_mem _ hid)) h
        simpa using this

/-- C5: in `AffectedPackages`, a unit is in the `direct` result exactly when
some changed file either maps to it in the exact file index, or — the file
being absent from the file index — the file's directory has a `dirMap` entry
listing the unit; and the `direct` result is deduplicated by unit ID.  The
resolvability hypothesis states that the ID-keyed indices point at stored
nodes, which the builder guarantees (it stores every node it indexes). -/
theorem C5_direct_mapping (g : DependencyGraph) (fuel : Nat) (files : List String)
    (d t : List String)
    (hres : ∀ id ∈ directlyAffectedIds g files, (lookupL g.packageMap id).isSome)
    (hok : g.AffectedPackages fuel files = .ok (d, t)) :
    (∀ x, x ∈ d ↔ ∃ f, f ∈ files ∧ directHit g f x) ∧ d.Nodup := by
  have hd : d = directlyAffectedIds g files := by
    simpa using affectedLoop_direct hres hok
  subst hd
  constructor
  · intro x
    rw [show directlyAffectedIds g files = files.foldl (directStep g) [] from rfl,
      mem_foldl_directStep]
    simp
  · exact nodup_foldl_directStep List.nodup_nil

/-- Witness for C5: the chain graph, one file hitting the exact index and one
resolved through the directory fallback. -/
theorem C5_direct_mapping_witness :
    (∀ x, x ∈ (["C", "B"] : List String) ↔
      ∃ f, f ∈ ["c/f.go", "b/notes.txt"] ∧ directHit gChain f x) ∧
    (["C", "B"] : List String).Nodup :=
  C5_direct_mapping gChain 10 ["c/f.go", "b/notes.txt"] ["C", "B"] ["C", "B", "A"]
    (by decide) rfl

/-!
## Claim C6
-/

theorem directStep_unmapped {g : DependencyGraph} {acc : List String} {f : String}
    (h1 : lookupL g.fileMap f = none) (h2 : lookupL g.dirMap (dirname f) = none) :
    directStep g acc f = acc := by
  unfold directStep
  rw [h1, h2]

theorem foldl_directStep_unmapped {g : DependencyGraph} :
    ∀ {files : List String} {acc : List String},
    (∀ f ∈ files, lookupL g.fileMap f = none ∧ lookupL g.dirMap (dirname f) = none) →
    files.foldl (directStep g) acc = acc := by
  intro files
  induction files with
  | nil => exact fun _ => rfl
  | cons f0 rest ih =>
    intro acc hall
    obtain ⟨h1, h2⟩ := hall f0 (List.mem_cons_self _ _)
    show rest.foldl (directStep g) (directStep g acc f0) = acc
    rw [directStep_unmapped h1 h2]
    exact ih (fun f hf => hall f (List.mem_cons_of_mem _ hf))

/-- C6: a changed file that is absent from the exact file index and whose
directory is absent from the directory index contributes nothing to
`AffectedPackages` — removing it from the batch leaves the whole result
(direct set, transitive set, and error behaviour) unchanged — and a batch
consisting only of such files returns empty `direct` and `transitive` sets
with no error. -/
theorem C6_unmapped_files (g : DependencyGraph) (fuel : Nat) (f : String)
    (files1 files2 files : List String)
    (h1 : lookupL g.fileMap f = none) (h2 : lookupL g.dirMap (dirname f) = none) :
    g.AffectedPackages fuel (files1 ++ f :: files2) =
      g.AffectedPackages fuel (files1 ++ files2) ∧
    ((∀ f' ∈ files, lookupL g.fileMap f' = none ∧ lookupL g.dirMap (dirname f') = none) →
      g.AffectedPackages fuel files = .ok ([], [])) := by
  constructor
  · show affectedLoop g fuel (directlyAffectedIds g (files1 ++ f :: files2)) [] [] = _
    have hda : directlyAffectedIds g (files1 ++ f :: files2) =
        directlyAffectedIds g (files1 ++ files2) := by
      unfold directlyAffectedIds
      rw [List.foldl_append, List.foldl_append]
      show List.foldl (directStep g) (directStep g _ f) files2 = _
      rw [directStep_unmapped h1 h2]
    rw [hda]
    rfl
  · intro hall
    show affectedLoop g fuel (directlyAffectedIds g files) [] [] = _
    rw [show directlyAffectedIds g files = files.foldl (directStep g) [] from rfl,
      foldl_directStep_unmapped hall]
    rfl

/-- Witness for C6: the chain graph, a documentation file outside every
index. -/
theorem C6_unmapped_files_witness :
    gChain.AffectedPackages 10 (["c/f.go"] ++ "docs/README.md" :: []) =
      gChain.AffectedPackages 10 (["c/f.go"] ++ []) ∧
    gChain.AffectedPackages 10 ["docs/README.md"] = .ok ([], []) := by
  have h := C6_unmapped_files gChain 10 "docs/README.md" ["c/f.go"] []
    ["docs/README.md"] (by decide) (by decide)
  exact ⟨h.1, h.2 (by decide)⟩

/-!
## String-suffix lemmas for path normalization
-/

theorem strEndsWith_append (b suf : String) : strEndsWith (b ++ suf) suf = true := by
  unfold strEndsWith
  rw [String.data_append]
  simp only [List.isSuffixOf_iff_suffix]
  exact List.suffix_append _ _

theorem strEndsWith_append_ne (b s1 s2 : String)
    (hlen : s1.data.length = s2.data.length) (hne : s1.data ≠ s2.data) :
    strEndsWith (b ++ s1) s2 = false := by
  unfold strEndsWith
  rw [String.data_append]
  cases hb : (s2.data.isSuffixOf (b.data ++ s1.data)) with
  | false => rfl
  | true =>
    exfalso
    obtain ⟨t, ht⟩ := List.isSuffixOf_iff_suffix.mp hb
    have hl := congrArg List.length ht
    rw [List.length_append, List.length_append] at hl
    obtain ⟨-, h2⟩ := List.append_inj ht (by omega)
    exact hne h2.symm

theorem strTrimSuffix_append (b suf : String) : strTrimSuffix (b ++ suf) suf = b := by
  unfold strTrimSuffix
  rw [strEndsWith_append]
  simp only [if_true]
  rw [String.data_append]
  have hlen : b.data.length + suf.data.length - suf.data.length = b.data.length := by omega
  rw [List.length_append, hlen, List.take_left]

theorem normalizePkgPath_plain (b : String)
    (h1 : strEndsWith b "_test" = false) (h2 : strEndsWith b ".test" = false) :
    normalizePkgPath b = b := by
  unfold normalizePkgPath
  rw [h1, h2]
  rfl

theorem normalizePkgPath_underscore (b : String) :
    normalizePkgPath (b ++ "_test") = b := by
  unfold normalizePkgPath
  rw [strEndsWith_append]
  simp only [if_true]
  exact strTrimSuffix_append b "_test"

theorem normalizePkgPath_dot (b : String) :
    normalizePkgPath (b ++ ".test") = b := by
  unfold normalizePkgPath
  rw [strEndsWith_append_ne b ".test" "_test" (by decide) (by decide), strEndsWith_append]
  simp only [if_true, Bool.false_eq_true, if_false]
  exact strTrimSuffix_append b ".test"

/-!
## Claim C7
-/

theorem mem_foldl_normInsert {pkgs : List Package} :
    ∀ {acc : List String} {x : String},
    x ∈ pkgs.foldl (fun acc pkg => insertId acc (normalizePkgPath pkg.pkgPath)) acc ↔
      x ∈ acc ∨ ∃ p, p ∈ pkgs ∧ normalizePkgPath p.pkgPath = x := by
  induction pkgs with
  | nil => simp
  | cons p0 rest ih =>
    intro acc x
    show x ∈ rest.foldl _ (insertId acc (normalizePkgPath p0.pkgPath)) ↔ _
    rw [ih, mem_insertId]
    simp only [List.mem_cons]
    constructor
    · rintro ((hx | hx) | ⟨p, hp, hn⟩)
      · exact Or.inl hx
      · exact Or.inr ⟨p0, Or.inl rfl, hx.symm⟩
      · exact Or.inr ⟨p, Or.inr hp, hn⟩
    · rintro (hx | ⟨p, (rfl | hp), hn⟩)
      · exact Or.inl (Or.inl hx)
      · exact Or.inl (Or.inr hn.symm)
      · exact Or.inr ⟨p, hp, hn⟩

theorem nodup_foldl_normInsert {pkgs : List Package} :
    ∀ {acc : List String}, acc.Nodup →
    (pkgs.foldl (fun acc pkg => insertId acc (normalizePkgPath pkg.pkgPath)) acc).Nodup := by
  induction pkgs with
  | nil => exact fun h => h
  | cons p0 rest ih => exact fun h => ih (nodup_insertId h)

theorem mem_UniquePackagePaths {pkgs : List Package} {x : String} :
    x ∈ UniquePackagePaths pkgs ↔ ∃ p, p ∈ pkgs ∧ normalizePkgPath p.pkgPath = x := by
  unfold UniquePackagePaths sortStrings
  rw [(List.perm_insertionSort _ _).mem_iff, mem_foldl_normInsert]
  simp

theorem nodup_UniquePackagePaths {pkgs : List Package} :
    (UniquePackagePaths pkgs).Nodup := by
  unfold UniquePackagePaths sortStrings
  exact ((List.perm_insertionSort _ _).nodup_iff).mpr (nodup_foldl_normInsert List.nodup_nil)

theorem sorted_UniquePackagePaths {pkgs : List Package} :
    List.Sorted (· < ·) (UniquePackagePaths pkgs) := by
  have hle : List.Sorted (fun a b : String => a ≤ b) (UniquePackagePaths pkgs) :=
    List.sorted_insertionSort _ _
  have hnd : (UniquePackagePaths pkgs).Nodup := nodup_UniquePackagePaths
  exact (hle.and hnd).imp (fun hx => lt_of_le_of_ne hx.1 hx.2)

/-- C7: `UniquePackagePaths` (gta.go:174-197) folds the `_test` and `.test`
suffixes into the base path before deduplicating, and returns a
duplicate-free, lexicographically sorted list; a list holding a non-suffixed
base path together with either suffixed variant collapses to exactly the
one-element list of the base path. -/
theorem C7_unique_package_paths (pkgs : List Package) (b : String)
    (hb1 : strEndsWith b "_test" = false) (hb2 : strEndsWith b ".test" = false) :
    (∀ x, x ∈ UniquePackagePaths pkgs ↔
      ∃ p, p ∈ pkgs ∧ normalizePkgPath p.pkgPath = x) ∧
    (UniquePackagePaths pkgs).Nodup ∧
    List.Sorted (· < ·) (UniquePackagePaths pkgs) ∧
    UniquePackagePaths [standInPackage b, standInPackage (b ++ "_test")] = [b] ∧
    UniquePackagePaths [standInPackage b, standInPackage (b ++ ".test")] = [b] := by
  refine ⟨fun x => mem_UniquePackagePaths, nodup_UniquePackagePaths,
    sorted_UniquePackagePaths, ?_, ?_⟩
  · show sortStrings (insertId (insertId []
      (normalizePkgPath (standInPackage b).pkgPath))
      (normalizePkgPath (standInPackage (b ++ "_test")).pkgPath)) = [b]
    show sortStrings (insertId (insertId [] (normalizePkgPath b))
      (normalizePkgPath (b ++ "_test"))) = [b]
    rw [normalizePkgPath_plain b hb1 hb2, normalizePkgPath_underscore]
    show sortStrings (insertId [b] b) = [b]
    unfold insertId
    rw [if_pos (List.mem_singleton.mpr rfl)]
    rfl
  · show sortStrings (insertId (insertId [] (normalizePkgPath b))
      (normalizePkgPath (b ++ ".test"))) = [b]
    rw [normalizePkgPath_plain b hb1 hb2, normalizePkgPath_dot]
    show sortStrings (insertId [b] b) = [b]
    unfold insertId
    rw [if_pos (List.mem_singleton.mpr rfl)]
    rfl

/-- Witness for C7 at `b = "foo"` with a concrete package list. -/
theorem C7_unique_package_paths_witness :
    (∀ x, x ∈ UniquePackagePaths [standInPackage "foo", standInPackage "bar"] ↔
      ∃ p, p ∈ [standInPackage "foo", standInPackage "bar"] ∧
        normalizePkgPath p.pkgPath = x) ∧
    (UniquePackagePaths [standInPackage "foo", standInPackage "bar"]).Nodup ∧
    List.Sorted (· < ·) (UniquePackagePaths [standInPackage "foo", standInPackage "bar"]) ∧
    UniquePackagePaths [standInPackage "foo", standInPackage ("foo" ++ "_test")] = ["foo"] ∧
    UniquePackagePaths [standInPackage "foo", standInPackage ("foo" ++ ".test")] = ["foo"] :=
  C7_unique_package_paths [standInPackage "foo", standInPackage "bar"] "foo"
    (by decide) (by decide)

/-!
## Claim C8
-/

theorem map_pkgPath_standIn (l : List String) :
    (l.map standInPackage).map Package.pkgPath = l := by
  induction l with
  | nil => rfl
  | cons a t ih => simpa [standInPackage] using ih

/-- Counterexample to C8: a result whose `Changes` holds the import path
`"foo_test"` round-trips to the path set `{"foo"}` — `MarshalJSON` applies
`UniquePackagePaths`, which folds the `_test` suffix away — so the decoded
object does not carry the same set of import-path strings. -/
theorem C8_counterexample :
    (Packages.mk [] [standInPackage "foo_test"] []).changes.map Package.pkgPath =
      ["foo_test"] ∧
    (roundTripPackages (Packages.mk [] [standInPackage "foo_test"] [])).changes.map
      Package.pkgPath = ["foo"] ∧
    "foo_test" ∉
      (roundTripPackages (Packages.mk [] [standInPackage "foo_test"] [])).changes.map
        Package.pkgPath := by
  refine ⟨rfl, rfl, by decide⟩

/-- C8 as amended: encoding a result object and decoding it reproduces, in
each of `changes`, `all_changes` and each `dependencies` entry, exactly the
normalized (test suffixes folded), deduplicated, sorted import-path list of
the original — hence the same set of import-path strings whenever the
original contains no suffixed variant — reconstructed as path-only stand-in
units carrying no ID, file or edge data. -/
theorem C8_roundtrip (p : Packages) :
    ((roundTripPackages p).changes.map Package.pkgPath = UniquePackagePaths p.changes) ∧
    ((roundTripPackages p).allChanges.map Package.pkgPath =
      UniquePackagePaths p.allChanges) ∧
    ((roundTripPackages p).dependencies.map (fun kv => (kv.1, kv.2.map Package.pkgPath)) =
      mapify p.dependencies) ∧
    (∀ q ∈ (roundTripPackages p).changes,
      q.id = "" ∧ q.dependencies = [] ∧ q.dependents = []) ∧
    ((∀ q ∈ p.changes, strEndsWith q.pkgPath "_test" = false ∧
        strEndsWith q.pkgPath ".test" = false) →
      ∀ x, x ∈ (roundTripPackages p).changes.map Package.pkgPath ↔
        x ∈ p.changes.map Package.pkgPath) := by
  refine ⟨map_pkgPath_standIn _, map_pkgPath_standIn _, ?_, ?_, ?_⟩
  · show ((mapify p.dependencies).map (fun kv => (kv.1, kv.2.map standInPackage))).map
      (fun kv => (kv.1, kv.2.map Package.pkgPath)) = mapify p.dependencies
    rw [List.map_map]
    have hfun : ((fun kv : String × List Package => (kv.1, kv.2.map Package.pkgPath)) ∘
        fun kv : String × List String => (kv.1, kv.2.map standInPackage)) = id := by
      funext kv
      show (kv.1, (kv.2.map standInPackage).map Package.pkgPath) = kv
      rw [map_pkgPath_standIn]
    rw [hfun, List.map_id]
  · intro q hq
    have hq2 : q ∈ (UniquePackagePaths p.changes).map standInPackage := hq
    obtain ⟨s, -, rfl⟩ := List.mem_map.mp hq2
    exact ⟨rfl, rfl, rfl⟩
  · intro hplain x
    have hch : (roundTripPackages p).changes =
        (UniquePackagePaths p.changes).map standInPackage := rfl
    rw [hch, map_pkgPath_standIn, mem_UniquePackagePaths]
    constructor
    · rintro ⟨q, hq, rfl⟩
      obtain ⟨h1, h2⟩ := hplain q hq
      rw [normalizePkgPath_plain _ h1 h2]
      exact List.mem_map.mpr ⟨q, hq, rfl⟩
    · intro hx
      obtain ⟨q, hq, rfl⟩ := List.mem_map.mp hx
      obtain ⟨h1, h2⟩ := hplain q hq
      exact ⟨q, hq, normalizePkgPath_plain _ h1 h2⟩

/-- Witness for C8's amended statement at a concrete result object. -/
theorem C8_roundtrip_witness :
    ((roundTripPackages (Packages.mk [("k", [standInPackage "a"])] [standInPackage "a"]
        [standInPackage "b"])).changes.map Package.pkgPath =
      UniquePackagePaths [standInPackage "a"]) ∧
    (∀ x, x ∈ (roundTripPackages (Packages.mk [("k", [standInPackage "a"])]
        [standInPackage "a"] [standInPackage "b"])).changes.map Package.pkgPath ↔
      x ∈ [standInPackage "a"].map Package.pkgPath) :=
  ⟨(C8_roundtrip _).1,
   (C8_roundtrip (Packages.mk [("k", [standInPackage "a"])] [standInPackage "a"]
      [standInPackage "b"])).2.2.2.2 (by decide)⟩

/-!
## Lookup lemmas for the builder's map operations
-/

theorem lookupL_setL_self {α : Type} {l : List (String × α)} {k : String} {v : α} :
    lookupL (setL l k v) k = some v := by
  induction l with
  | nil => simp [setL, lookupL]
  | cons e rest ih =>
    obtain ⟨k', v'⟩ := e
    unfold setL
    split
    · next heq => subst heq; simp [lookupL]
    · next hne => simp only [lookupL, if_neg hne]; exact ih

theorem lookupL_setL_ne {α : Type} {l : List (String × α)} {k k' : String} {v : α}
    (h : k' ≠ k) : lookupL (setL l k v) k' = lookupL l k' := by
  induction l with
  | nil => simp [setL, lookupL, h]
  | cons e rest ih =>
    obtain ⟨k0, v0⟩ := e
    unfold setL
    split
    · next heq => subst heq; simp [lookupL, h]
    · next hne =>
      unfold lookupL
      split
      · rfl
      · exact ih

theorem lookupL_updateL_eq {α : Type} {l : List (String × α)} {k : String} {f : α → α} :
    lookupL (updateL l k f) k = (lookupL l k).map f := by
  induction l with
  | nil => simp [updateL, lookupL]
  | cons e rest ih =>
    obtain ⟨k0, v0⟩ := e
    unfold updateL
    split
    · next heq => subst heq; simp [lookupL]
    · next hne =>
      unfold lookupL
      split
      · next heq => exact absurd heq hne
      · exact ih

theorem lookupL_updateL_ne {α : Type} {l : List (String × α)} {k k' : String} {f : α → α}
    (h : k' ≠ k) : lookupL (updateL l k f) k' = lookupL l k' := by
  induction l with
  | nil => simp [updateL, lookupL]
  | cons e rest ih =>
    obtain ⟨k0, v0⟩ := e
    unfold updateL
    split
    · next heq =>
      subst heq
      unfold lookupL
      split
      · next heq2 => exact absurd heq2 h
      · rfl
    · next hne =>
      unfold lookupL
      split
      · rfl
      · exact ih

theorem lookupL_appendPath_self {l : List (String × List String)} {path id : String} :
    (lookupL (appendPath l path id) path).isSome := by
  induction l with
  | nil => simp [appendPath, lookupL]
  | cons e rest ih =>
    obtain ⟨k0, v0⟩ := e
    unfold appendPath
    split
    · next heq => subst heq; simp [lookupL]
    · next hne =>
      unfold lookupL
      split
      · simp
      · exact ih

theorem lookupL_appendPath_ne {l : List (String × List String)} {path path' id : String}
    (h : path' ≠ path) : lookupL (appendPath l path id) path' = lookupL l path' := by
  induction l with
  | nil => simp [appendPath, lookupL, h]
  | cons e rest ih =>
    obtain ⟨k0, v0⟩ := e
    unfold appendPath
    split
    · next heq =>
      subst heq
      unfold lookupL
      split
      · next heq2 => exact absurd heq2 h
      · rfl
    · next hne =>
      unfold lookupL
      split
      · rfl
      · exact ih

theorem lookupL_appendPath_isSome {l : List (String × List String)} {path path' id : String}
    (h : (lookupL l path').isSome) : (lookupL (appendPath l path id) path').isSome := by
  by_cases heq : path' = path
  · subst heq; exact lookupL_appendPath_self
  · rwa [lookupL_appendPath_ne heq]

/-!
## Construction invariants (graph.go:72-133)

Three invariants are established by `addPackage` and preserved by every step
of the construction:
* `PathReg`: every stored node's `PkgPath` has a `packagePathMap` entry —
  graph.go:93-94 registers both maps together;
* `NoDangling`: every ID stored in an edge set is a key of `packageMap` —
  graph.go:112-120 adds edges only between registered nodes;
* `EdgeSym`: an import edge is stored on both endpoints symmetrically —
  graph.go:118-119 writes both directions in the same iteration.
-/

/-- Every stored node's import path is a key of `packagePathMap`. -/
def PathReg (g : DependencyGraph) : Prop :=
  ∀ id p, lookupL g.packageMap id = some p → (lookupL g.packagePathMap p.pkgPath).isSome

/-- Every ID in a stored edge set resolves in `packageMap`. -/
def NoDangling (g : DependencyGraph) : Prop :=
  ∀ id p, lookupL g.packageMap id = some p →
    (∀ d ∈ p.dependents, (lookupL g.packageMap d).isSome) ∧
    (∀ d ∈ p.dependencies, (lookupL g.packageMap d).isSome)

/-- Q is in P's `Dependencies` exactly when P is in Q's `Dependents`. -/
def EdgeSym (g : DependencyGraph) : Prop :=
  ∀ idP p idQ q, lookupL g.packageMap idP = some p → lookupL g.packageMap idQ = some q →
    (idQ ∈ p.dependencies ↔ idP ∈ q.dependents)

/-- The conjunction of the three construction invariants. -/
def BuildInv (g : DependencyGraph) : Prop :=
  PathReg g ∧ NoDangling g ∧ EdgeSym g

/-- The stored node `addEdges` yields at each key: the original, with `a`
added to `b`'s dependents and `b` added to `a`'s dependencies. -/
theorem addEdges_lookup (g : DependencyGraph) (a b x : String) :
    lookupL (addEdges g a b).packageMap x =
      (lookupL g.packageMap x).map (fun p =>
        let p1 := if x = b then { p with dependents := insertId p.dependents a } else p
        if x = a then { p1 with dependencies := insertId p1.dependencies b } else p1) := by
  show lookupL (updateL (updateL g.packageMap b _) a _) x = _
  by_cases hxa : x = a
  · subst hxa
    rw [lookupL_updateL_eq]
    by_cases hxb : x = b
    · subst hxb
      rw [lookupL_updateL_eq]
      cases lookupL g.packageMap x <;> simp
    · rw [lookupL_updateL_ne hxb]
      cases lookupL g.packageMap x <;> simp [hxb]
  · rw [lookupL_updateL_ne hxa]
    by_cases hxb : x = b
    · subst hxb
      rw [lookupL_updateL_eq]
      cases lookupL g.packageMap x <;> simp [hxa]
    · rw [lookupL_updateL_ne hxb]
      cases lookupL g.packageMap x <;> simp [hxa, hxb]

theorem addEdges_packagePathMap (g : DependencyGraph) (a b : String) :
    (addEdges g a b).packagePathMap = g.packagePathMap := rfl

theorem addEdges_isSome (g : DependencyGraph) (a b x : String) :
    (lookupL (addEdges g a b).packageMap x).isSome =
      (lookupL g.packageMap x).isSome := by
  rw [addEdges_lookup]
  cases lookupL g.packageMap x <;> rfl

theorem addEdges_inv {g : DependencyGraph} {a b : String}
    (ha : (lookupL g.packageMap a).isSome) (hb : (lookupL g.packageMap b).isSome)
    (hinv : BuildInv g) : BuildInv (addEdges g a b) := by
  obtain ⟨hreg, hdang, hsym⟩ := hinv
  refine ⟨?_, ?_, ?_⟩
  · intro id p hp
    rw [addEdges_lookup] at hp
    cases h0 : lookupL g.packageMap id with
    | none => rw [h0] at hp; cases hp
    | some p0 =>
      rw [h0] at hp
      injection hp with hp
      subst hp
      rw [addEdges_packagePathMap]
      have : (if id = a then
          { (if id = b then { p0 with dependents := insertId p0.dependents a } else p0) with
            dependencies := insertId (if id = b then
              { p0 with dependents := insertId p0.dependents a } else p0).dependencies b }
        else (if id = b then { p0 with dependents := insertId p0.dependents a }
          else p0)).pkgPath = p0.pkgPath := by
        split <;> split <;> rfl
      rw [this]
      exact hreg id p0 h0
  · intro id p hp
    rw [addEdges_lookup] at hp
    cases h0 : lookupL g.packageMap id with
    | none => rw [h0] at hp; cases hp
    | some p0 =>
      rw [h0] at hp
      injection hp with hp
      subst hp
      obtain ⟨hdep, hdeps⟩ := hdang id p0 h0
      constructor
      · intro d hd
        rw [addEdges_isSome]
        have hd2 : d ∈ (if id = b then insertId p0.dependents a else p0.dependents) := by
          revert hd
          split <;> split <;> intro hd <;> simpa using hd
        by_cases hidb : id = b
        · rw [if_pos hidb] at hd2
          rcases mem_insertId.mp hd2 with hmem | rfl
          · exact hdep d hmem
          · exact ha
        · rw [if_neg hidb] at hd2
          exact hdep d hd2
      · intro d hd
        rw [addEdges_isSome]
        have hd2 : d ∈ (if id = a then insertId p0.dependencies b else p0.dependencies) := by
          revert hd
          split <;> split <;> intro hd <;> simpa using hd
        by_cases hida : id = a
        · rw [if_pos hida] at hd2
          rcases mem_insertId.mp hd2 with hmem | rfl
          · exact hdeps d hmem
          · exact hb
        · rw [if_neg hida] at hd2
          exact hdeps d hd2
  · intro idP p idQ q hp hq
    rw [addEdges_lookup] at hp hq
    cases h0 : lookupL g.packageMap idP with
    | none => rw [h0] at hp; cases hp
    | some p0 =>
      cases h1 : lookupL g.packageMap idQ with
      | none => rw [h1] at hq; cases hq
      | some q0 =>
        rw [h0] at hp
        rw [h1] at hq
        injection hp with hp
        injection hq with hq
        subst hp
        subst hq
        have hpdeps : (if idP = a then
            { (if idP = b then { p0 with dependents := insertId p0.dependents a } else p0) with
              dependencies := insertId (if idP = b then
                { p0 with dependents := insertId p0.dependents a } else p0).dependencies b }
          else (if idP = b then { p0 with dependents := insertId p0.dependents a }
            else p0)).dependencies =
            (if idP = a then insertId p0.dependencies b else p0.dependencies) := by
          split <;> split <;> rfl
        have hqdeps : (if idQ = a then
            { (if idQ = b then { q0 with dependents := insertId q0.dependents a } else q0) with
              dependencies := insertId (if idQ = b then
                { q0 with dependents := insertId q0.dependents a } else q0).dependencies b }
          else (if idQ = b then { q0 with dependents := insertId q0.dependents a }
            else q0)).dependents =
            (if idQ = b then insertId q0.dependents a else q0.dependents) := by
          split <;> split <;> rfl
        rw [hpdeps, hqdeps]
        by_cases hpa : idP = a <;> by_cases hqb : idQ = b
    
        · subst hpa
          subst hqb
          rw [if_pos rfl, if_pos rfl]
          simp [self_mem_insertId]
        · subst hpa
          rw [if_pos rfl, if_neg hqb, mem_insertId]
          constructor
          · rintro (hmem | rfl)
            · exact (hsym idP p0 idQ q0 h0 h1).mp hmem
            · exact absurd rfl hqb
          · intro hmem
            exact Or.inl ((hsym idP p0 idQ q0 h0 h1).mpr hmem)
        · subst hqb
          rw [if_neg hpa, if_pos rfl, mem_insertId]
          constructor
          · intro hmem
            exact Or.inl ((hsym idP p0 idQ q0 h0 h1).mp hmem)
          · rintro (hmem | rfl)
            · exact (hsym idP p0 idQ q0 h0 h1).mpr hmem
            · exact absurd rfl hpa
        · rw [if_neg hpa, if_neg hqb]
          exact hsym idP p0 idQ q0 h0 h1

theorem registerFile_packageMap (i : String) (g : DependencyGraph) (f : String) :
    (registerFile i g f).packageMap = g.packageMap := rfl

theorem registerFile_packagePathMap (i : String) (g : DependencyGraph) (f : String) :
    (registerFile i g f).packagePathMap = g.packagePathMap := rfl

theorem foldl_registerFile_packageMap (i : String) :
    ∀ (files : List String) (g : DependencyGraph),
    (files.foldl (registerFile i) g).packageMap = g.packageMap := by
  intro files
  induction files with
  | nil => exact fun g => rfl
  | cons f rest ih => exact fun g => ih (registerFile i g f)

theorem foldl_registerFile_packagePathMap (i : String) :
    ∀ (files : List String) (g : DependencyGraph),
    (files.foldl (registerFile i) g).packagePathMap = g.packagePathMap := by
  intro files
  induction files with
  | nil => exact fun g => rfl
  | cons f rest ih => exact fun g => ih (registerFile i g f)

/-- The construction invariants depend only on `packageMap` and
`packagePathMap`, so steps that touch only the file and directory indices
preserve them. -/
theorem buildInv_of_eq {g g' : DependencyGraph} (h1 : g'.packageMap = g.packageMap)
    (h2 : g'.packagePathMap = g.packagePathMap) (hinv : BuildInv g) : BuildInv g' := by
  obtain ⟨hreg, hdang, hsym⟩ := hinv
  refine ⟨?_, ?_, ?_⟩
  · intro id p hp
    rw [h1] at hp
    rw [h2]
    exact hreg id p hp
  · intro id p hp
    rw [h1] at hp
    obtain ⟨hl, hr⟩ := hdang id p hp
    constructor
    · intro d hd
      rw [h1]
      exact hl d hd
    · intro d hd
      rw [h1]
      exact hr d hd
  · intro idP p idQ q hp hq
    rw [h1] at hp hq
    exact hsym idP p idQ q hp hq

/-- Registering a fresh node (graph.go:87-94) preserves the invariants: the
new node carries empty edge sets and is indexed under its path; no existing
edge set can mention the fresh ID. -/
theorem register_inv {g : DependencyGraph} {i path : String}
    (hfresh : lookupL g.packageMap i = none) (hinv : BuildInv g) :
    BuildInv { g with
      packageMap := setL g.packageMap i (Package.mk i path [] [])
      packagePathMap := appendPath g.packagePathMap path i } := by
  obtain ⟨hreg, hdang, hsym⟩ := hinv
  refine ⟨?_, ?_, ?_⟩
  · intro id p hp
    show (lookupL (appendPath g.packagePathMap path i) p.pkgPath).isSome
    by_cases hid : id = i
    · subst hid
      rw [show lookupL (setL g.packageMap id (Package.mk id path [] [])) id =
          some (Package.mk id path [] []) from lookupL_setL_self] at hp
      injection hp with hp
      subst hp
      exact lookupL_appendPath_self
    · rw [show lookupL (setL g.packageMap i (Package.mk i path [] [])) id =
          lookupL g.packageMap id from lookupL_setL_ne hid] at hp
      exact lookupL_appendPath_isSome (hreg id p hp)
  · intro id p hp
    by_cases hid : id = i
    · subst hid
      rw [show lookupL (setL g.packageMap id (Package.mk id path [] [])) id =
          some (Package.mk id path [] []) from lookupL_setL_self] at hp
      injection hp with hp
      subst hp
      exact ⟨fun d hd => absurd hd (List.not_mem_nil d),
        fun d hd => absurd hd (List.not_mem_nil d)⟩
    · rw [show lookupL (setL g.packageMap i (Package.mk i path [] [])) id =
          lookupL g.packageMap id from lookupL_setL_ne hid] at hp
      obtain ⟨hl, hr⟩ := hdang id p hp
      constructor
      · intro d hd
        by_cases hdi : d = i
        · subst hdi
          rw [show lookupL (setL g.packageMap d (Package.mk d path [] [])) d =
              some (Package.mk d path [] []) from lookupL_setL_self]
          rfl
        · rw [show lookupL (setL g.packageMap i (Package.mk i path [] [])) d =
              lookupL g.packageMap d from lookupL_setL_ne hdi]
          exact hl d hd
      · intro d hd
        by_cases hdi : d = i
        · subst hdi
          rw [show lookupL (setL g.packageMap d (Package.mk d path [] [])) d =
              some (Package.mk d path [] []) from lookupL_setL_self]
          rfl
        · rw [show lookupL (setL g.packageMap i (Package.mk i path [] [])) d =
              lookupL g.packageMap d from lookupL_setL_ne hdi]
          exact hr d hd
  · intro idP p idQ q hp hq
    by_cases hpa : idP = i <;> by_cases hqa : idQ = i
    · rw [hpa] at hp
      rw [hqa] at hq
      rw [show lookupL (setL g.packageMap i (Package.mk i path [] [])) i =
          some (Package.mk i path [] []) from lookupL_setL_self] at hp hq
      injection hp with hp
      injection hq with hq
      subst hp
      subst hq
      simp
    · rw [hpa] at hp
      rw [show lookupL (setL g.packageMap i (Package.mk i path [] [])) i =
          some (Package.mk i path [] []) from lookupL_setL_self] at hp
      rw [show lookupL (setL g.packageMap i (Package.mk i path [] [])) idQ =
          lookupL g.packageMap idQ from lookupL_setL_ne hqa] at hq
      injection hp with hp
      subst hp
      constructor
      · intro hmem
        simp at hmem
      · intro hmem
        exfalso
        rw [hpa] at hmem
        have := (hdang idQ q hq).1 i hmem
        rw [hfresh] at this
        cases this
    · rw [hqa] at hq
      rw [show lookupL (setL g.packageMap i (Package.mk i path [] [])) i =
          some (Package.mk i path [] []) from lookupL_setL_self] at hq
      rw [show lookupL (setL g.packageMap i (Package.mk i path [] [])) idP =
          lookupL g.packageMap idP from lookupL_setL_ne hpa] at hp
      injection hq with hq
      subst hq
      constructor
      · intro hmem
        exfalso
        rw [hqa] at hmem
        have := (hdang idP p hp).2 i hmem
        rw [hfresh] at this
        cases this
      · intro hmem
        simp at hmem
    · rw [show lookupL (setL g.packageMap i (Package.mk i path [] [])) idP =
          lookupL g.packageMap idP from lookupL_setL_ne hpa] at hp
      rw [show lookupL (setL g.packageMap i (Package.mk i path [] [])) idQ =
          lookupL g.packageMap idQ from lookupL_setL_ne hqa] at hq
      exact hsym idP p idQ q hp hq

mutual

theorem addPackage_mono : ∀ (r : RawPackage) (g : DependencyGraph) (x : String),
    (lookupL g.packageMap x).isSome = true →
    (lookupL (addPackage g r).packageMap x).isSome = true
  | .mk i path gf cgf igf of imports, g, x, hx => by
    unfold addPackage
    split
    · exact hx
    · apply processImports_mono imports
      rw [foldl_registerFile_packageMap]
      show (lookupL (setL g.packageMap i (Package.mk i path [] [])) x).isSome = true
      by_cases hxi : x = i
      · rw [hxi, lookupL_setL_self]
        rfl
      · rw [lookupL_setL_ne hxi]
        exact hx

theorem processImports_mono : ∀ (l : List RawPackage) (g : DependencyGraph) (pid x : String),
    (lookupL g.packageMap x).isSome = true →
    (lookupL (processImports g pid l).packageMap x).isSome = true
  | [], _, _, _, hx => hx
  | imp :: rest, g, pid, x, hx => by
    apply processImports_mono rest
    rw [addEdges_isSome]
    exact addPackage_mono imp g x hx

end

theorem addPackage_self : ∀ (r : RawPackage) (g : DependencyGraph),
    (lookupL (addPackage g r).packageMap r.id).isSome = true
  | .mk i path gf cgf igf of imports, g => by
    unfold addPackage
    split
    · next hcond => exact hcond
    · apply processImports_mono imports
      rw [foldl_registerFile_packageMap]
      show (lookupL (setL g.packageMap i (Package.mk i path [] [])) i).isSome = true
      rw [lookupL_setL_self]
      rfl

mutual

theorem addPackage_inv : ∀ (r : RawPackage) (g : DependencyGraph),
    BuildInv g → BuildInv (addPackage g r)
  | .mk i path gf cgf igf of imports, g, hinv => by
    unfold addPackage
    split
    · exact hinv
    · next hcond =>
      have hfresh : lookupL g.packageMap i = none := by
        cases h : lookupL g.packageMap i with
        | none => rfl
        | some p => rw [h] at hcond; exact absurd rfl hcond
      apply processImports_inv imports
      · rw [foldl_registerFile_packageMap]
        show (lookupL (setL g.packageMap i (Package.mk i path [] [])) i).isSome = true
        rw [lookupL_setL_self]
        rfl
      · exact buildInv_of_eq (foldl_registerFile_packageMap i _ _)
          (foldl_registerFile_packagePathMap i _ _) (register_inv hfresh hinv)

theorem processImports_inv : ∀ (l : List RawPackage) (g : DependencyGraph) (pid : String),
    (lookupL g.packageMap pid).isSome = true → BuildInv g →
    BuildInv (processImports g pid l)
  | [], _, _, _, hinv => hinv
  | imp :: rest, g, pid, hpid, hinv => by
    have h1 := addPackage_inv imp g hinv
    have hpid1 := addPackage_mono imp g pid hpid
    have himp := addPackage_self imp g
    apply processImports_inv rest
    · rw [addEdges_isSome]
      exact hpid1
    · exact addEdges_inv hpid1 himp h1

end

theorem buildInv_empty : BuildInv emptyDependencyGraph := by
  refine ⟨?_, ?_, ?_⟩
  · intro id p hp
    cases hp
  · intro id p hp
    cases hp
  · intro idP p idQ q hp hq
    cases hp

/-- Every graph produced by the embedded `BuildDependencyGraph` satisfies the
construction invariants. -/
theorem buildDependencyGraph_inv (raws : List RawPackage) :
    BuildInv (BuildDependencyGraph raws) := by
  suffices h : ∀ (l : List RawPackage) (g : DependencyGraph),
      BuildInv g → BuildInv (l.foldl addPackage g) from
    h raws emptyDependencyGraph buildInv_empty
  intro l
  induction l with
  | nil => exact fun _ h => h
  | cons r rest ih => exact fun g h => ih _ (addPackage_inv r g h)

/-!
## Claim C9
-/

/-- C9: after `BuildDependencyGraph` (graph.go:41-133), edge storage is
symmetric: for every pair of registered units P and Q, Q's ID is in P's
`Dependencies` exactly when P's ID is in Q's `Dependents` — both directions
of every import edge are recorded together at graph.go:118-119.  The query
operations (graph.go:139-263) are pure functions of the graph in this
embedding — they return freshly built result sets and leave the indices
untouched — so no query makes the two sides diverge afterwards. -/
theorem C9_edge_symmetry (raws : List RawPackage) (idP idQ : String) (p q : Package)
    (hp : lookupL (BuildDependencyGraph raws).packageMap idP = some p)
    (hq : lookupL (BuildDependencyGraph raws).packageMap idQ = some q) :
    idQ ∈ p.dependencies ↔ idP ∈ q.dependents :=
  (buildDependencyGraph_inv raws).2.2 idP p idQ q hp hq

/-- Witness for C9: in the built chain graph, B imports C, stored on both
sides. -/
theorem C9_edge_symmetry_witness :
    ("C" ∈ (Package.mk "B" "b" ["C"] ["A"]).dependencies ↔
      "B" ∈ (Package.mk "C" "c" [] ["B"]).dependents) :=
  C9_edge_symmetry [rawChainA] "B" "C" (Package.mk "B" "b" ["C"] ["A"])
    (Package.mk "C" "c" [] ["B"]) rfl rfl

/-!
## Claim C10
-/

theorem edgeLoop_no_unknown {rec : String → Except GraphErr (List String)} :
    ∀ {deps : List Package} {acc : List String},
    (∀ dp ∈ deps, rec dp.pkgPath ≠ .error .unknownPackage) →
    edgeLoop rec true deps acc ≠ .error .unknownPackage := by
  intro deps
  induction deps with
  | nil =>
    intro acc _ h
    cases h
  | cons d rest ih =>
    intro acc hall
    unfold edgeLoop
    rw [if_pos rfl]
    cases hrec : rec d.pkgPath with
    | error e =>
      cases e with
      | unknownPackage => exact absurd hrec (hall d (List.mem_cons_self _ _))
      | outOfFuel => intro h; cases h
    | ok sub => exact ih (fun dp hdp => hall dp (List.mem_cons_of_mem _ hdp))

theorem pkgLoop_no_unknown {g : DependencyGraph} {edgesOf : Package → List String}
    {rec : String → Except GraphErr (List String)} :
    ∀ {pkgs : List Package} {acc : List String},
    (∀ p ∈ pkgs, ∀ dp ∈ pkgsOf g (edgesOf p), rec dp.pkgPath ≠ .error .unknownPackage) →
    pkgLoop g edgesOf rec true pkgs acc ≠ .error .unknownPackage := by
  intro pkgs
  induction pkgs with
  | nil =>
    intro acc _ h
    cases h
  | cons p rest ih =>
    intro acc hall
    unfold pkgLoop
    cases hel : edgeLoop rec true (pkgsOf g (edgesOf p)) acc with
    | error e =>
      cases e with
      | unknownPackage => exact absurd hel (edgeLoop_no_unknown (hall p (List.mem_cons_self _ _)))
      | outOfFuel => intro h; cases h
    | ok acc2 => exact ih (fun p' hp' => hall p' (List.mem_cons_of_mem _ hp'))

/-- When every stored node's path is registered, the recursive `dependents`
walk can never take the `ErrUnknownPackage` branch: it only recurses into
paths read off stored nodes. -/
theorem dependentsAux_no_unknown {g : DependencyGraph} (hreg : PathReg g) :
    ∀ (fuel : Nat) (path : String), (lookupL g.packagePathMap path).isSome →
    dependentsAux g fuel path true ≠ .error .unknownPackage := by
  intro fuel
  induction fuel with
  | zero =>
    intro path _ h
    cases h
  | succ fuel ih =>
    intro path hsome
    obtain ⟨ids, hl⟩ := Option.isSome_iff_exists.mp hsome
    unfold dependentsAux
    rw [hl]
    apply pkgLoop_no_unknown
    intro p hp dp hdp
    obtain ⟨idd, hidd, hdlook⟩ := mem_pkgsOf.mp hdp
    exact ih dp.pkgPath (hreg idd dp hdlook)

theorem affectedLoop_no_unknown {g : DependencyGraph} (hreg : PathReg g) (fuel : Nat) :
    ∀ (ids direct allAffected : List String),
    affectedLoop g fuel ids direct allAffected ≠ .error .unknownPackage := by
  intro ids
  induction ids with
  | nil =>
    intro direct allAffected h
    cases h
  | cons id0 rest ih =>
    intro direct allAffected
    unfold affectedLoop
    cases hpm : lookupL g.packageMap id0 with
    | none => exact ih direct allAffected
    | some pkg =>
      cases hdep : dependentsAux g fuel pkg.pkgPath true with
      | error e =>
        cases e with
        | unknownPackage =>
          exact absurd hdep (dependentsAux_no_unknown hreg fuel pkg.pkgPath
            (hreg id0 pkg hpm))
        | outOfFuel =>
          intro h
          have h2 : (match dependentsAux g fuel pkg.pkgPath true with
            | Except.error e => Except.error e
            | Except.ok deps => affectedLoop g fuel rest (direct ++ [id0])
                (unionIds (insertId allAffected id0) deps)) =
              Except.error GraphErr.unknownPackage := h
          rw [hdep] at h2
          simp at h2
      | ok deps =>
        intro h
        have h2 : (match dependentsAux g fuel pkg.pkgPath true with
          | Except.error e => Except.error e
          | Except.ok deps => affectedLoop g fuel rest (direct ++ [id0])
              (unionIds (insertId allAffected id0) deps)) =
            Except.error GraphErr.unknownPackage := h
        rw [hdep] at h2
        exact ih _ _ h2

/-- C10: for every graph produced by `BuildDependencyGraph` and every file
list, `AffectedPackages` never returns `ErrUnknownPackage`: construction
registers every stored unit's `PkgPath` in `packagePathMap` (graph.go:93-94),
every unit reached through the file or directory index is a stored unit, and
the recursive `dependents` walk only queries paths read off stored units, so
the `ErrUnknownPackage` branch (graph.go:240-241) is unreachable.  The only
alternative to a successful result is the embedding's out-of-fuel outcome,
which models non-termination of the Go recursion and is impossible on the
acyclic graphs Go's loader produces. -/
theorem C10_no_error (raws : List RawPackage) (fuel : Nat) (files : List String) :
    (∃ dt, (BuildDependencyGraph raws).AffectedPackages fuel files = .ok dt) ∨
    (BuildDependencyGraph raws).AffectedPackages fuel files = .error .outOfFuel := by
  have hreg : PathReg (BuildDependencyGraph raws) := (buildDependencyGraph_inv raws).1
  have hne := affectedLoop_no_unknown hreg fuel
    (directlyAffectedIds (BuildDependencyGraph raws) files) [] []
  cases hres : (BuildDependencyGraph raws).AffectedPackages fuel files with
  | ok dt => exact Or.inl ⟨dt, rfl⟩
  | error e =>
    cases e with
    | unknownPackage => exact absurd hres hne
    | outOfFuel => exact Or.inr rfl
